import Mathlib

/-!
Shallow embedding of `src/src/Search.c` (DECIPHER): the per-query pipeline of
`searchIndex` (hit gathering with its 32-bit overflow guard, the two-key merge
sort, the adjacency collapse, the chain dynamic program, the result selectors,
the anchor traceback) and the index builders `countIndex` / `updateIndex`.

Machine doubles are modelled as rationals, R integer vectors as functions out
of `ℕ` (indices) into `ℤ`, and the `NA_INTEGER` sentinel as `Option`/`none`.
Each C loop becomes a fold over the list of loop indices it visits.
-/

namespace SearchC

/-! ### Chain DP (`searchIndex`, lines 370–420)

The inputs are the post-collapse per-hit arrays `posQuery`, `posTarget`,
`set` (target id), `len`, `score` together with the precomputed cost tables
`gapCost`/`sepCost` and the window bound `maxSep`.  `s` is the number of
hits; entries of the arrays beyond `s` are irrelevant. -/

structure DPInput where
  s : ℕ
  posQuery : ℕ → ℤ
  posTarget : ℕ → ℤ
  set : ℕ → ℤ
  len : ℕ → ℤ
  score0 : ℕ → ℚ
  gapCost : ℤ → ℚ
  sepCost : ℤ → ℚ
  maxSep : ℤ

/-- Mutable per-hit state of the chain DP: `score`, the back link `chain`,
the chain root `origin`, and the coverage `cov`. -/
structure DPState where
  score : ℕ → ℚ
  chain : ℕ → ℕ
  origin : ℕ → ℕ
  cov : ℕ → ℤ

/-- `chain[j] = j`, `origin[j] = j`, `cov[j] = len[j] - 1` (lines 374–378). -/
def dpInit (inp : DPInput) : DPState :=
  { score := inp.score0
    chain := fun j => j
    origin := fun j => j
    cov := fun j => inp.len j - 1 }

/-- One step of the inner DP loop (lines 389–417): hit `k` considers the
candidate predecessor `p`; `prevScore` is `score[k]` as read at the top of
`k`'s iteration (line 387).  The second state component is the window start
`j`, which is advanced to `p` when `deltaTarget > maxSep`. -/
def dpStep (inp : DPInput) (k : ℕ) (prevScore : ℚ) (acc : DPState × ℕ) (p : ℕ) :
    DPState × ℕ :=
  let st := acc.1
  let deltaT := inp.posTarget k - inp.posTarget p - inp.len p
  if inp.maxSep < deltaT then (st, p)
  else if 0 ≤ deltaT then
    let deltaQ := inp.posQuery k - inp.posQuery p - inp.len p
    if 0 ≤ deltaQ ∧ deltaQ ≤ inp.maxSep then
      let temp := st.score p + prevScore
      if st.score k < temp then
        let gap := if deltaT < deltaQ then deltaQ - deltaT else deltaT - deltaQ
        let sep := if deltaT < deltaQ then deltaT else deltaQ
        let cand := temp + inp.gapCost gap + inp.sepCost sep
        if st.score k < cand then
          ({ score := Function.update st.score k cand
             chain := Function.update st.chain k p
             origin := Function.update st.origin k (st.origin p)
             cov := Function.update st.cov k (inp.len k - 1 + st.cov p) }, acc.2)
        else (st, acc.2)
      else (st, acc.2)
    else (st, acc.2)
  else (st, acc.2)

/-- One iteration of the outer DP loop (lines 383–420) for hit `k`: on a
target switch the window restarts at `k`; otherwise every `p` in `[j, k)` is
examined. -/
def dpIter (inp : DPInput) (acc : DPState × ℕ) (k : ℕ) : DPState × ℕ :=
  let st := acc.1
  let j := acc.2
  if inp.set k ≠ inp.set j then (st, k)
  else
    let prevScore := st.score k
    (List.range' j (k - j)).foldl (dpStep inp k prevScore) (st, j)

/-- The DP after processing hits `1, …, t` (the outer loop runs `k` from `1`
while `k < s`). -/
def dpPartial (inp : DPInput) (t : ℕ) : DPState × ℕ :=
  (List.range' 1 t).foldl (dpIter inp) (dpInit inp, 0)

/-- The whole chain DP of lines 370–420. -/
def dpRun (inp : DPInput) : DPState × ℕ :=
  dpPartial inp (inp.s - 1)

/-- The geometric guard of lines 390–395 under which hit `k` may link to the
candidate predecessor `p`. -/
def Linkable (inp : DPInput) (p k : ℕ) : Prop :=
  0 ≤ inp.posTarget k - inp.posTarget p - inp.len p ∧
  inp.posTarget k - inp.posTarget p - inp.len p ≤ inp.maxSep ∧
  0 ≤ inp.posQuery k - inp.posQuery p - inp.len p ∧
  inp.posQuery k - inp.posQuery p - inp.len p ≤ inp.maxSep

/-- `gap = |deltaQuery - deltaTarget|` (lines 398–404). -/
def gapOf (inp : DPInput) (p k : ℕ) : ℤ :=
  let deltaT := inp.posTarget k - inp.posTarget p - inp.len p
  let deltaQ := inp.posQuery k - inp.posQuery p - inp.len p
  if deltaT < deltaQ then deltaQ - deltaT else deltaT - deltaQ

/-- `sep = min deltaQuery deltaTarget` (lines 398–404). -/
def sepOf (inp : DPInput) (p k : ℕ) : ℤ :=
  let deltaT := inp.posTarget k - inp.posTarget p - inp.len p
  let deltaQ := inp.posQuery k - inp.posQuery p - inp.len p
  if deltaT < deltaQ then deltaT else deltaQ

/-- The candidate score of lines 396–406, with `score[p]` read from state
`st` and `score[k]`'s pre-iteration value `score0 k`. -/
def candScore (inp : DPInput) (st : DPState) (p k : ℕ) : ℚ :=
  st.score p + inp.score0 k + inp.gapCost (gapOf inp p k) + inp.sepCost (sepOf inp p k)

instance (inp : DPInput) (p k : ℕ) : Decidable (Linkable inp p k) := by
  unfold Linkable
  infer_instance

/-- Two DP states agree at entry `m`. -/
def entryEq (st st' : DPState) (m : ℕ) : Prop :=
  st.score m = st'.score m ∧ st.chain m = st'.chain m ∧
  st.origin m = st'.origin m ∧ st.cov m = st'.cov m

theorem entryEq_refl (st : DPState) (m : ℕ) : entryEq st st m :=
  ⟨rfl, rfl, rfl, rfl⟩

theorem entryEq_trans {st₁ st₂ st₃ : DPState} {m : ℕ}
    (h₁ : entryEq st₁ st₂ m) (h₂ : entryEq st₂ st₃ m) : entryEq st₁ st₃ m :=
  ⟨h₁.1.trans h₂.1, h₁.2.1.trans h₂.2.1, h₁.2.2.1.trans h₂.2.2.1, h₁.2.2.2.trans h₂.2.2.2⟩

/-- A single inner DP step either leaves the state unchanged or performs
exactly the guarded update of lines 396–413. -/
theorem dpStep_cases (inp : DPInput) (k : ℕ) (pv : ℚ) (acc : DPState × ℕ) (p : ℕ) :
    (dpStep inp k pv acc p).1 = acc.1 ∨
    (Linkable inp p k ∧
     (dpStep inp k pv acc p).1 =
       { score := Function.update acc.1.score k
           (acc.1.score p + pv + inp.gapCost (gapOf inp p k) + inp.sepCost (sepOf inp p k))
         chain := Function.update acc.1.chain k p
         origin := Function.update acc.1.origin k (acc.1.origin p)
         cov := Function.update acc.1.cov k (inp.len k - 1 + acc.1.cov p) }) := by
  simp only [dpStep, gapOf, sepOf]
  split
  · exact Or.inl rfl
  next h1 =>
    split
    next h2 =>
      split
      next h3 =>
        split
        next h4 =>
          split
          all_goals split
          all_goals first
            | exact Or.inl rfl
            | exact Or.inr ⟨⟨h2, le_of_not_lt h1, h3.1, h3.2⟩, rfl⟩
        next h4 => exact Or.inl rfl
      next h3 => exact Or.inl rfl
    next h2 => exact Or.inl rfl

/-- The window component of an inner step is the old window or `p`. -/
theorem dpStep_snd (inp : DPInput) (k : ℕ) (pv : ℚ) (acc : DPState × ℕ) (p : ℕ) :
    (dpStep inp k pv acc p).2 = acc.2 ∨ (dpStep inp k pv acc p).2 = p := by
  simp only [dpStep]
  repeat' split
  all_goals simp

/-- Inner steps for hit `k` do not modify entries other than `k`. -/
theorem dpStep_frame (inp : DPInput) (k : ℕ) (pv : ℚ) (acc : DPState × ℕ) (p : ℕ)
    (m : ℕ) (hm : m ≠ k) : entryEq (dpStep inp k pv acc p).1 acc.1 m := by
  rcases dpStep_cases inp k pv acc p with h | ⟨-, h⟩
  · rw [h]; exact entryEq_refl _ _
  · rw [h]
    exact ⟨Function.update_noteq hm _ _, Function.update_noteq hm _ _,
      Function.update_noteq hm _ _, Function.update_noteq hm _ _⟩

/-- Entry invariant for the inner loop of hit `k`, relative to the state
`st0` found at the start of `k`'s iteration: entry `k` is either untouched
or holds the update of some admissible predecessor `p < k`. -/
def EntryOk (inp : DPInput) (st0 : DPState) (k : ℕ) (pv : ℚ) (st : DPState) : Prop :=
  entryEq st st0 k ∨
  (∃ p, p < k ∧ Linkable inp p k ∧
    st.score k = st0.score p + pv + inp.gapCost (gapOf inp p k) + inp.sepCost (sepOf inp p k) ∧
    st.chain k = p ∧ st.origin k = st0.origin p ∧ st.cov k = inp.len k - 1 + st0.cov p)

/-- States agreeing off `k`. -/
def AgreeOff (k : ℕ) (st0 st : DPState) : Prop :=
  ∀ m, m ≠ k → entryEq st st0 m

theorem foldl_dpStep_char (inp : DPInput) (k : ℕ) (pv : ℚ) (st0 : DPState) :
    ∀ (l : List ℕ) (acc : DPState × ℕ), (∀ p ∈ l, p < k) →
      AgreeOff k st0 acc.1 → EntryOk inp st0 k pv acc.1 →
      AgreeOff k st0 (l.foldl (dpStep inp k pv) acc).1 ∧
        EntryOk inp st0 k pv (l.foldl (dpStep inp k pv) acc).1 := by
  intro l
  induction l with
  | nil => intro acc _ ha he; exact ⟨ha, he⟩
  | cons p l ih =>
    intro acc hmem ha he
    have hp : p < k := hmem p (by simp)
    have hne : p ≠ k := Nat.ne_of_lt hp
    refine ih (dpStep inp k pv acc p) (fun q hq => hmem q (by simp [hq])) ?_ ?_
    · intro m hm
      exact entryEq_trans (dpStep_frame inp k pv acc p m hm) (ha m hm)
    · rcases dpStep_cases inp k pv acc p with h | ⟨hl, h⟩
      · rw [h]; exact he
      · right
        refine ⟨p, hp, hl, ?_, ?_, ?_, ?_⟩ <;> rw [h] <;>
          simp [Function.update_same, (ha p hne).1, (ha p hne).2.2.1, (ha p hne).2.2.2]

theorem foldl_dpStep_snd (inp : DPInput) (k : ℕ) (pv : ℚ) :
    ∀ (l : List ℕ) (acc : DPState × ℕ),
      (l.foldl (dpStep inp k pv) acc).2 = acc.2 ∨ (l.foldl (dpStep inp k pv) acc).2 ∈ l := by
  intro l
  induction l with
  | nil => intro acc; left; rfl
  | cons p l ih =>
    intro acc
    rcases ih (dpStep inp k pv acc p) with h | h
    · rw [List.foldl_cons]
      rcases dpStep_snd inp k pv acc p with h2 | h2
      · left; rw [h, h2]
      · right; rw [h, h2]; simp
    · right; rw [List.foldl_cons]; simp [h]

theorem foldl_dpStep_frame (inp : DPInput) (k : ℕ) (pv : ℚ) :
    ∀ (l : List ℕ) (acc : DPState × ℕ) (m : ℕ), m ≠ k →
      entryEq (l.foldl (dpStep inp k pv) acc).1 acc.1 m := by
  intro l
  induction l with
  | nil => intro acc m _; exact entryEq_refl _ _
  | cons p l ih =>
    intro acc m hm
    exact entryEq_trans (ih (dpStep inp k pv acc p) m hm) (dpStep_frame inp k pv acc p m hm)

/-- An outer iteration for hit `k` does not modify entries other than `k`. -/
theorem dpIter_frame (inp : DPInput) (acc : DPState × ℕ) (k m : ℕ) (hm : m ≠ k) :
    entryEq (dpIter inp acc k).1 acc.1 m := by
  simp only [dpIter]
  split
  · exact entryEq_refl _ _
  · exact foldl_dpStep_frame inp k (acc.1.score k) _ (acc.1, acc.2) m hm

/-- The window after an outer iteration for hit `k` is at most `k`,
provided it was at most `k` before. -/
theorem dpIter_snd_le (inp : DPInput) (acc : DPState × ℕ) (k : ℕ) (h : acc.2 ≤ k) :
    (dpIter inp acc k).2 ≤ k := by
  simp only [dpIter]
  split
  · exact le_rfl
  · rcases foldl_dpStep_snd inp k (acc.1.score k) (List.range' acc.2 (k - acc.2)) (acc.1, acc.2)
      with h2 | h2
    · rw [h2]; exact h
    · rcases List.mem_range'_1.mp h2 with ⟨h3, h4⟩
      omega

theorem dpPartial_zero (inp : DPInput) : dpPartial inp 0 = (dpInit inp, 0) := rfl

theorem dpPartial_succ (inp : DPInput) (t : ℕ) :
    dpPartial inp (t + 1) = dpIter inp (dpPartial inp t) (1 + t) := by
  unfold dpPartial
  rw [List.range'_1_concat, List.foldl_append]
  rfl

theorem dpPartial_snd_le (inp : DPInput) (t : ℕ) : (dpPartial inp t).2 ≤ t := by
  induction t with
  | zero => exact le_rfl
  | succ t ih =>
    rw [dpPartial_succ]
    have := dpIter_snd_le inp (dpPartial inp t) (1 + t) (by omega)
    omega

/-- Entries not yet visited by the outer loop still hold their initial
values (`0` is never visited). -/
theorem dpPartial_entry_untouched (inp : DPInput) (t m : ℕ) (hm : m = 0 ∨ t < m) :
    entryEq (dpPartial inp t).1 (dpInit inp) m := by
  induction t with
  | zero => exact entryEq_refl _ _
  | succ t ih =>
    rw [dpPartial_succ]
    refine entryEq_trans (dpIter_frame inp (dpPartial inp t) (1 + t) m ?_) (ih ?_)
    · omega
    · omega

/-- Entries already visited are stable under later outer iterations. -/
theorem dpPartial_entry_stable (inp : DPInput) (t₁ t₂ m : ℕ) (h : t₁ ≤ t₂) (hm : m ≤ t₁) :
    entryEq (dpPartial inp t₂).1 (dpPartial inp t₁).1 m := by
  induction t₂ with
  | zero =>
    have ht : t₁ = 0 := by omega
    subst ht
    exact entryEq_refl _ _
  | succ t ih =>
    by_cases ht : t₁ = t + 1
    · subst ht; exact entryEq_refl _ _
    · have h1 : t₁ ≤ t := by omega
      rw [dpPartial_succ]
      exact entryEq_trans (dpIter_frame inp (dpPartial inp t) (1 + t) m (by omega)) (ih h1)

/-- Characterization of the final DP state at any hit `k`: either entry `k`
still holds its initial values, or hit `k` was linked to some admissible
predecessor `p < k`, with `score`, `chain`, `origin` and `cov` holding
exactly the values written by the last update of lines 407–412 (in which the
values read at `p` are `p`'s final values, since entry `p` is settled before
`k`'s iteration). -/
theorem dp_char (inp : DPInput) (k : ℕ) :
    entryEq (dpRun inp).1 (dpInit inp) k ∨
    (∃ p, p < k ∧ Linkable inp p k ∧
      (dpRun inp).1.score k = candScore inp (dpRun inp).1 p k ∧
      (dpRun inp).1.chain k = p ∧
      (dpRun inp).1.origin k = (dpRun inp).1.origin p ∧
      (dpRun inp).1.cov k = inp.len k - 1 + (dpRun inp).1.cov p) := by
  by_cases hk0 : k = 0 ∨ inp.s - 1 < k
  · exact Or.inl (dpPartial_entry_untouched inp (inp.s - 1) k hk0)
  · push_neg at hk0
    obtain ⟨hk1, hk2⟩ := hk0
    have hstable := dpPartial_entry_stable inp k (inp.s - 1) k hk2 le_rfl
    have hsucc : dpPartial inp k = dpIter inp (dpPartial inp (k - 1)) k := by
      have hk : k - 1 + 1 = k := by omega
      have h1k : 1 + (k - 1) = k := by omega
      calc dpPartial inp k = dpPartial inp (k - 1 + 1) := by rw [hk]
        _ = dpIter inp (dpPartial inp (k - 1)) (1 + (k - 1)) := dpPartial_succ inp (k - 1)
        _ = dpIter inp (dpPartial inp (k - 1)) k := by rw [h1k]
    have hj0k : (dpPartial inp (k - 1)).2 ≤ k - 1 := dpPartial_snd_le inp (k - 1)
    have huntouched : entryEq (dpPartial inp (k - 1)).1 (dpInit inp) k :=
      dpPartial_entry_untouched inp (k - 1) k (by omega)
    by_cases hset : inp.set k ≠ inp.set (dpPartial inp (k - 1)).2
    · left
      have hres : (dpPartial inp k).1 = (dpPartial inp (k - 1)).1 := by
        rw [hsucc]; simp [dpIter, hset]
      have h1 : entryEq (dpRun inp).1 (dpPartial inp k).1 k := hstable
      rw [hres] at h1
      exact entryEq_trans h1 huntouched
    · push_neg at hset
      have hres : (dpPartial inp k).1 =
          ((List.range' (dpPartial inp (k - 1)).2 (k - (dpPartial inp (k - 1)).2)).foldl
            (dpStep inp k ((dpPartial inp (k - 1)).1.score k))
            ((dpPartial inp (k - 1)).1, (dpPartial inp (k - 1)).2)).1 := by
        rw [hsucc]
        simp only [dpIter]
        rw [if_neg (by simp [hset])]
      have hchar := foldl_dpStep_char inp k ((dpPartial inp (k - 1)).1.score k)
        (dpPartial inp (k - 1)).1
        (List.range' (dpPartial inp (k - 1)).2 (k - (dpPartial inp (k - 1)).2))
        ((dpPartial inp (k - 1)).1, (dpPartial inp (k - 1)).2)
        (fun p hp => by
          rcases List.mem_range'_1.mp hp with ⟨h1, h2⟩
          omega)
        (fun m _ => entryEq_refl _ _) (Or.inl (entryEq_refl _ _))
      rcases hchar.2 with hfix | ⟨p, hpk, hlink, hsc, hch, hor, hcov⟩
      · left
        have h1 : entryEq (dpRun inp).1 (dpPartial inp k).1 k := hstable
        rw [hres] at h1
        exact entryEq_trans h1 (entryEq_trans hfix huntouched)
      · right
        refine ⟨p, hpk, hlink, ?_, ?_, ?_, ?_⟩ <;>
        · have h1 : entryEq (dpRun inp).1 (dpPartial inp k).1 k := hstable
          rw [hres] at h1
          have hp1 : entryEq (dpRun inp).1 (dpPartial inp (k - 1)).1 p :=
            dpPartial_entry_stable inp (k - 1) (inp.s - 1) p (by omega) (by omega)
          obtain ⟨e1, e2, e3, e4⟩ := h1
          obtain ⟨f1, f2, f3, f4⟩ := hp1
          obtain ⟨g1, g2, g3, g4⟩ := huntouched
          first
            | (rw [e1, hsc, candScore, f1]
               have : (dpPartial inp (k - 1)).1.score k = inp.score0 k := g1
               rw [this])
            | rw [e2, hch]
            | (rw [e3, hor, f3])
            | (rw [e4, hcov, f4])

/-- `chain[k] ≤ k`: links only go backwards. -/
theorem dp_chain_le (inp : DPInput) (k : ℕ) : (dpRun inp).1.chain k ≤ k := by
  rcases dp_char inp k with h | ⟨p, hpk, _, _, hch, _, _⟩
  · have := h.2.1
    simp only [dpInit] at this
    omega
  · omega

/-- `origin[k] ≤ k`. -/
theorem dp_origin_le (inp : DPInput) : ∀ k, (dpRun inp).1.origin k ≤ k := by
  intro k
  induction k using Nat.strong_induction_on with
  | _ k ih =>
    rcases dp_char inp k with h | ⟨p, hpk, _, _, _, hor, _⟩
    · have := h.2.2.1
      simp only [dpInit] at this
      omega
    · rw [hor]
      exact le_trans (ih p hpk) (le_of_lt hpk)

/-- Every recorded `origin` is a root: `origin[origin[k]] = origin[k]`. -/
theorem dp_origin_idem (inp : DPInput) : ∀ k,
    (dpRun inp).1.origin ((dpRun inp).1.origin k) = (dpRun inp).1.origin k := by
  intro k
  induction k using Nat.strong_induction_on with
  | _ k ih =>
    rcases dp_char inp k with h | ⟨p, hpk, _, _, _, hor, _⟩
    · have := h.2.2.1
      simp only [dpInit] at this
      rw [this]
      exact this
    · rw [hor]
      exact ih p hpk

/-- The per-candidate update rule exactly as the claim's sentence states it
(`Modelled from the spec`-style rendering of the claim, for comparison with
`dpStep`): the update is performed exactly when the full candidate exceeds
`score[k]`, with no short-circuit on the cost-free sum. -/
def dpStepClaim (inp : DPInput) (k : ℕ) (pv : ℚ) (acc : DPState × ℕ) (p : ℕ) :
    DPState × ℕ :=
  let st := acc.1
  if Linkable inp p k then
    let cand := st.score p + pv + inp.gapCost (gapOf inp p k) + inp.sepCost (sepOf inp p k)
    if st.score k < cand then
      ({ score := Function.update st.score k cand
         chain := Function.update st.chain k p
         origin := Function.update st.origin k (st.origin p)
         cov := Function.update st.cov k (inp.len k - 1 + st.cov p) }, acc.2)
    else (st, acc.2)
  else (st, acc.2)

/-- Concrete DP input exhibiting the short-circuit: three hits on one
target; hit `2` first links to hit `0` at zero cost (score `6`), after which
the candidate through hit `1` (score `5 + 1 + gapCost[1] = 8`) exceeds
`score[2] = 6` but fails the cost-free pre-check `5 + 1 > 6`.  The cost
tables correspond to `sC = 0`, `gC = 2` (so `gapCost[1] = 2·√1 = 2`) with
`maxSep = 1`. -/
def exInp : DPInput :=
  { s := 3
    posQuery := fun j => if j = 0 then 3 else if j = 1 then 3 else 5
    posTarget := fun j => if j = 0 then 1 else if j = 1 then 2 else 3
    set := fun _ => 7
    len := fun j => if j = 0 then 2 else 1
    score0 := fun j => if j = 2 then 1 else 5
    gapCost := fun i => if i = 1 then 2 else 0
    sepCost := fun _ => 0
    maxSep := 1 }

/-- C1, amended: given the admissible-delta guard, the code performs the
update exactly when BOTH the cost-free sum `score[p] + prevScore` and the
full candidate exceed the current `score[k]`; when it does, it writes
exactly the claimed four fields. -/
theorem claim1_thm (inp : DPInput) (k p : ℕ) (pv : ℚ) (acc : DPState × ℕ)
    (hlink : Linkable inp p k) :
    dpStep inp k pv acc p =
      (if acc.1.score k < acc.1.score p + pv ∧
          acc.1.score k < acc.1.score p + pv +
            inp.gapCost (gapOf inp p k) + inp.sepCost (sepOf inp p k)
       then ({ score := Function.update acc.1.score k
                 (acc.1.score p + pv + inp.gapCost (gapOf inp p k) + inp.sepCost (sepOf inp p k))
               chain := Function.update acc.1.chain k p
               origin := Function.update acc.1.origin k (acc.1.origin p)
               cov := Function.update acc.1.cov k (inp.len k - 1 + acc.1.cov p) }, acc.2)
       else (acc.1, acc.2)) := by
  obtain ⟨h1, h2, h3, h4⟩ := hlink
  simp only [dpStep, gapOf, sepOf] at *
  rw [if_neg (not_lt.mpr h2), if_pos h1, if_pos (And.intro h3 h4)]
  by_cases hA : acc.1.score k < acc.1.score p + pv
  · rw [if_pos hA]
    by_cases hB : acc.1.score k < acc.1.score p + pv +
        inp.gapCost (if inp.posTarget k - inp.posTarget p - inp.len p <
            inp.posQuery k - inp.posQuery p - inp.len p then
          inp.posQuery k - inp.posQuery p - inp.len p -
            (inp.posTarget k - inp.posTarget p - inp.len p)
        else inp.posTarget k - inp.posTarget p - inp.len p -
            (inp.posQuery k - inp.posQuery p - inp.len p)) +
        inp.sepCost (if inp.posTarget k - inp.posTarget p - inp.len p <
            inp.posQuery k - inp.posQuery p - inp.len p then
          inp.posTarget k - inp.posTarget p - inp.len p
        else inp.posQuery k - inp.posQuery p - inp.len p)
    · rw [if_pos hB, if_pos (And.intro hA hB)]
    · rw [if_neg hB, if_neg (by intro h; exact hB h.2)]
  · rw [if_neg hA, if_neg (by intro h; exact hA h.1)]

/-- Witness for C1's amended theorem at the concrete input `exInp`,
`k = 2`, `p = 1`, `prevScore = score0 2 = 1`. -/
theorem claim1_witness :
    Linkable exInp 1 2 ∧
    dpStep exInp 2 1 (dpInit exInp, 0) 1 =
      (if (dpInit exInp).score 2 < (dpInit exInp).score 1 + 1 ∧
          (dpInit exInp).score 2 < (dpInit exInp).score 1 + 1 +
            exInp.gapCost (gapOf exInp 1 2) + exInp.sepCost (sepOf exInp 1 2)
       then ({ score := Function.update (dpInit exInp).score 2
                 ((dpInit exInp).score 1 + 1 +
                   exInp.gapCost (gapOf exInp 1 2) + exInp.sepCost (sepOf exInp 1 2))
               chain := Function.update (dpInit exInp).chain 2 1
               origin := Function.update (dpInit exInp).origin 2 ((dpInit exInp).origin 1)
               cov := Function.update (dpInit exInp).cov 2
                 (exInp.len 2 - 1 + (dpInit exInp).cov 1) }, (dpInit exInp, 0).2)
       else ((dpInit exInp, 0).1, (dpInit exInp, 0).2)) :=
  ⟨by refine ⟨?_, ?_, ?_, ?_⟩ <;> norm_num [exInp],
   claim1_thm exInp 2 1 1 (dpInit exInp, 0)
     (by refine ⟨?_, ?_, ?_, ?_⟩ <;> norm_num [exInp])⟩

/-- Counterexample to C1 as stated: at `exInp`, after the DP, hit `2` is
linked through hit `0` with final `score[2] = 6`, although the claim's
candidate through `p = 1` is admissible and equals `8 > 6`; the claim
demands the update (giving `prev[2] = 1`), the code refuses it (its
cost-free pre-check `score[1] + prevScore = 6 > 6` fails).  In single steps:
from the state reached after processing `p = 0`, the code's step through
`p = 1` leaves `score[2] = 6` while the claim's step sets `score[2] = 8`. -/
theorem claim1_counterexample :
    Linkable exInp 1 2 ∧
    candScore exInp (dpRun exInp).1 1 2 = 8 ∧
    (dpRun exInp).1.score 2 = 6 ∧
    (dpRun exInp).1.chain 2 = 0 ∧
    (dpStep exInp 2 (exInp.score0 2)
      (dpStep exInp 2 (exInp.score0 2) (dpInit exInp, 0) 0) 1).1.score 2 = 6 ∧
    (dpStepClaim exInp 2 (exInp.score0 2)
      (dpStep exInp 2 (exInp.score0 2) (dpInit exInp, 0) 0) 1).1.score 2 = 8 := by
  refine ⟨⟨?_, ?_, ?_, ?_⟩, ?_, ?_, ?_, ?_, ?_⟩ <;>
    norm_num [dpRun, dpPartial, dpIter, dpStep, dpStepClaim, dpInit, exInp,
      candScore, gapOf, sepOf, Linkable,
      show List.range' 1 2 = [1, 2] from rfl,
      show List.range' 0 2 = [0, 1] from rfl,
      show List.range' 0 1 = [0] from rfl, Function.update_apply]

/-- Concrete two-hit chain used as witness input for the monotone-score
claim: hit `1` links to hit `0` with zero costs, `score` goes `1 → 2`. -/
def exInp2 : DPInput :=
  { s := 2
    posQuery := fun j => if j = 0 then 1 else 2
    posTarget := fun j => if j = 0 then 1 else 2
    set := fun _ => 1
    len := fun _ => 1
    score0 := fun _ => 1
    gapCost := fun _ => 0
    sepCost := fun _ => 0
    maxSep := 1 }

/-- C7: when every raw anchor score is positive and the cost tables are
non-negative (the spec's non-negative `sC`, `gC` make `sC·√i`, `gC·√i ≥ 0`),
the DP score strictly increases along every `prev` link, hence is strictly
increasing from the origin anchor to the chain head. -/
theorem claim7_thm (inp : DPInput)
    (hpos : ∀ j, 0 < inp.score0 j)
    (hgap : ∀ i, 0 ≤ inp.gapCost i)
    (hsep : ∀ i, 0 ≤ inp.sepCost i) :
    ∀ k, (dpRun inp).1.chain k ≠ k →
      (dpRun inp).1.score ((dpRun inp).1.chain k) < (dpRun inp).1.score k := by
  intro k hk
  rcases dp_char inp k with h | ⟨p, hpk, _, hsc, hch, _, _⟩
  · exact absurd (h.2.1.trans (by simp [dpInit])) hk
  · rw [hch, hsc, candScore]
    have h1 := hpos k
    have h2 := hgap (gapOf inp p k)
    have h3 := hsep (sepOf inp p k)
    linarith

/-- Witness for C7 at the concrete input `exInp2`. -/
theorem claim7_witness :
    (dpRun exInp2).1.chain 1 ≠ 1 ∧
    (dpRun exInp2).1.score ((dpRun exInp2).1.chain 1) < (dpRun exInp2).1.score 1 :=
  ⟨by norm_num [dpRun, dpPartial, dpIter, dpStep, dpInit, exInp2, Function.update_apply],
   claim7_thm exInp2 (fun _ => by norm_num [exInp2])
     (fun _ => by norm_num [exInp2]) (fun _ => by norm_num [exInp2]) 1
     (by norm_num [dpRun, dpPartial, dpIter, dpStep, dpInit, exInp2, Function.update_apply])⟩
/-! ### Two-key merge sort (lines 213–295)

The sort works on an index permutation (`o1`/`o2`): runs are lists of hit
indices; `tset`/`pt` are the `set` (target id) and `posTarget` key arrays.
The initial runs are the `l` per-k-mer buckets (consecutive index ranges). -/

/-- The three-way comparison of lines 233–243 collapses to: take the left
element exactly when its `(set, posTarget)` key is lexicographically at
most the right one (a tie on both keys takes the left element, which is
what makes the merge stable). -/
def KeyLE (tset pt : ℕ → ℤ) (a b : ℕ) : Prop :=
  tset a < tset b ∨ (tset a = tset b ∧ pt a ≤ pt b)

instance (tset pt : ℕ → ℤ) (a b : ℕ) : Decidable (KeyLE tset pt a b) := by
  unfold KeyLE
  infer_instance

/-- Merging one pair of adjacent runs (lines 230–248). -/
def mergeRuns (tset pt : ℕ → ℤ) : List ℕ → List ℕ → List ℕ
  | [], bs => bs
  | a :: as, [] => a :: as
  | a :: as, b :: bs =>
    if KeyLE tset pt a b then a :: mergeRuns tset pt as (b :: bs)
    else b :: mergeRuns tset pt (a :: as) bs
termination_by as bs => as.length + bs.length

/-- One round of the bottom-up merge (lines 230–267): adjacent run pairs
are merged, a trailing unpaired run is carried over unchanged (the tail
copy of lines 253–256 together with the boundary compaction of lines
258–267). -/
def mergePairs (tset pt : ℕ → ℤ) : List (List ℕ) → List (List ℕ)
  | r1 :: r2 :: rest => mergeRuns tset pt r1 r2 :: mergePairs tset pt rest
  | rs => rs

theorem mergePairs_length (tset pt : ℕ → ℤ) :
    ∀ rs : List (List ℕ), (mergePairs tset pt rs).length ≤ rs.length := by
  intro rs
  induction rs using mergePairs.induct tset pt with
  | case1 r1 r2 rest ih =>
    simp only [mergePairs, List.length_cons]
    omega
  | case2 rs h =>
    rcases rs with - | ⟨r1, rs2⟩
    · exact le_rfl
    rcases rs2 with - | ⟨r2, rest⟩
    · exact le_rfl
    · exact absurd rfl (h r1 r2 rest)

/-- The whole sort of lines 222–269: rounds of pairwise merging
(`while (c > 1)`) until at most one run remains; the result is the final
index permutation `o1`. -/
def mergeAll (tset pt : ℕ → ℤ) : List (List ℕ) → List ℕ
  | [] => []
  | [r] => r
  | r1 :: r2 :: rest => mergeAll tset pt (mergePairs tset pt (r1 :: r2 :: rest))
termination_by rs => rs.length
decreasing_by
  have h := mergePairs_length tset pt rest
  simp only [mergePairs, List.length_cons]
  omega

/-- The reorder pass of lines 272–295: all five per-hit arrays are gathered
through the same index permutation in one pass. -/
def reorder (perm : List ℕ) (posQuery posTarget tset : ℕ → ℤ)
    (score addScore : ℕ → ℚ) :
    List ℤ × List ℤ × List ℤ × List ℚ × List ℚ :=
  (perm.map posQuery, perm.map posTarget, perm.map tset,
    perm.map score, perm.map addScore)

/-- The strict three-key order `(set, posTarget, index)`; a run sorted by
it is two-key sorted with ties in original index order. -/
def Key3LT (tset pt : ℕ → ℤ) (a b : ℕ) : Prop :=
  tset a < tset b ∨ (tset a = tset b ∧ (pt a < pt b ∨ (pt a = pt b ∧ a < b)))

theorem mergeRuns_perm (tset pt : ℕ → ℤ) :
    ∀ (n : ℕ) (as bs : List ℕ), as.length + bs.length ≤ n →
      List.Perm (mergeRuns tset pt as bs) (as ++ bs) := by
  intro n
  induction n with
  | zero =>
    intro as bs hlen
    have ha : as = [] := by
      cases as
      · rfl
      · simp at hlen
    have hb : bs = [] := by
      cases bs
      · rfl
      · simp at hlen
    subst ha
    subst hb
    simp [mergeRuns]
  | succ n ih =>
    intro as bs hlen
    cases as with
    | nil => simp [mergeRuns]
    | cons a as =>
      cases bs with
      | nil => simp [mergeRuns]
      | cons b bs =>
        simp only [mergeRuns]
        split
        · exact List.Perm.cons a (ih as (b :: bs) (by simp at hlen ⊢; omega))
        · refine List.Perm.trans
            (List.Perm.cons b (ih (a :: as) bs (by simp at hlen ⊢; omega))) ?_
          exact List.perm_middle.symm

theorem mergeRuns_mem (tset pt : ℕ → ℤ) (as bs : List ℕ) (x : ℕ)
    (hx : x ∈ mergeRuns tset pt as bs) : x ∈ as ∨ x ∈ bs := by
  have h := (mergeRuns_perm tset pt (as.length + bs.length) as bs le_rfl).mem_iff.mp hx
  exact List.mem_append.mp h

theorem keyle_rev {tset pt : ℕ → ℤ} {a b : ℕ} (h : ¬KeyLE tset pt a b) :
    tset b < tset a ∨ (tset b = tset a ∧ pt b < pt a) := by
  unfold KeyLE at h
  omega

theorem K3_of_keyle {tset pt : ℕ → ℤ} {a b : ℕ} (hab : KeyLE tset pt a b)
    (hx : tset a = tset b → pt a = pt b → a < b) : Key3LT tset pt a b := by
  unfold KeyLE at hab
  unfold Key3LT
  by_cases h1 : tset a = tset b
  · by_cases h2 : pt a = pt b
    · have := hx h1 h2
      omega
    · omega
  · omega

theorem K3_trans_left {tset pt : ℕ → ℤ} {a b x : ℕ} (hab : KeyLE tset pt a b)
    (hbx : Key3LT tset pt b x) (hax : tset a = tset x → pt a = pt x → a < x) :
    Key3LT tset pt a x := by
  unfold KeyLE at hab
  unfold Key3LT at hbx ⊢
  by_cases h1 : tset a = tset x
  · by_cases h2 : pt a = pt x
    · have := hax h1 h2
      omega
    · omega
  · omega

theorem K3_trans_right {tset pt : ℕ → ℤ} {a b x : ℕ}
    (hba : tset b < tset a ∨ (tset b = tset a ∧ pt b < pt a))
    (hax : Key3LT tset pt a x) : Key3LT tset pt b x := by
  unfold Key3LT at hax ⊢
  omega

theorem K3_of_rev {tset pt : ℕ → ℤ} {a b : ℕ}
    (hba : tset b < tset a ∨ (tset b = tset a ∧ pt b < pt a)) :
    Key3LT tset pt b a := by
  unfold Key3LT
  omega

/-- A merge of two runs, each strictly three-key sorted, is strictly
three-key sorted, provided full-key ties across the runs respect the index
order (which the block structure of the buckets guarantees). -/
theorem mergeRuns_pairwise (tset pt : ℕ → ℤ) :
    ∀ (n : ℕ) (as bs : List ℕ), as.length + bs.length ≤ n →
      as.Pairwise (Key3LT tset pt) → bs.Pairwise (Key3LT tset pt) →
      (∀ a ∈ as, ∀ b ∈ bs, tset a = tset b → pt a = pt b → a < b) →
      (mergeRuns tset pt as bs).Pairwise (Key3LT tset pt) := by
  intro n
  induction n with
  | zero =>
    intro as bs hlen has hbs hcross
    cases as with
    | nil => simpa [mergeRuns] using hbs
    | cons a as => simp at hlen
  | succ n ih =>
    intro as bs hlen has hbs hcross
    cases as with
    | nil => simpa [mergeRuns] using hbs
    | cons a as =>
      cases bs with
      | nil => simpa [mergeRuns] using has
      | cons b bs =>
        rcases List.pairwise_cons.mp has with ⟨haall, has2⟩
        rcases List.pairwise_cons.mp hbs with ⟨hball, hbs2⟩
        simp only [mergeRuns]
        split
        next hk =>
          rw [List.pairwise_cons]
          constructor
          · intro x hx
            rcases mergeRuns_mem tset pt as (b :: bs) x hx with h | h
            · exact haall x h
            · rcases List.mem_cons.mp h with h1 | h1
              · subst h1
                exact K3_of_keyle hk
                  (hcross a (List.mem_cons_self a as) x (List.mem_cons_self x bs))
              · exact K3_trans_left hk (hball x h1)
                  (hcross a (List.mem_cons_self a as) x (List.mem_cons_of_mem b h1))
          · refine ih as (b :: bs) (by simp at hlen ⊢; omega) has2 hbs ?_
            intro a2 ha2 b2 hb2
            exact hcross a2 (List.mem_cons_of_mem a ha2) b2 hb2
        next hk =>
          rw [List.pairwise_cons]
          have hrev := keyle_rev hk
          constructor
          · intro x hx
            rcases mergeRuns_mem tset pt (a :: as) bs x hx with h | h
            · rcases List.mem_cons.mp h with h1 | h1
              · subst h1
                exact K3_of_rev hrev
              · exact K3_trans_right hrev (haall x h1)
            · exact hball x h
          · refine ih (a :: as) bs (by simp at hlen ⊢; omega) has hbs2 ?_
            intro a2 ha2 b2 hb2
            exact hcross a2 ha2 b2 (List.mem_cons_of_mem b hb2)

/-- Run-list invariant carried through the merge rounds: each run is
strictly three-key sorted, and the runs are index blocks in order. -/
def RunsInv (tset pt : ℕ → ℤ) (rs : List (List ℕ)) : Prop :=
  (∀ r ∈ rs, r.Pairwise (Key3LT tset pt)) ∧
  rs.Pairwise (fun r1 r2 => ∀ a ∈ r1, ∀ b ∈ r2, a < b)

theorem mergePairs_join_perm (tset pt : ℕ → ℤ) :
    ∀ rs : List (List ℕ), List.Perm (mergePairs tset pt rs).flatten rs.flatten := by
  intro rs
  induction rs using mergePairs.induct tset pt with
  | case1 r1 r2 rest ih =>
    simp only [mergePairs, List.flatten_cons]
    refine List.Perm.trans
      (((mergeRuns_perm tset pt _ r1 r2 le_rfl).append_right _).trans
        ((List.Perm.append_left (r1 ++ r2) ih))) ?_
    simp [List.append_assoc]
  | case2 rs h =>
    rcases rs with - | ⟨r1, rs2⟩
    · exact List.Perm.refl _
    rcases rs2 with - | ⟨r2, rest⟩
    · exact List.Perm.refl _
    · exact absurd rfl (h r1 r2 rest)

theorem mergePairs_mem_join (tset pt : ℕ → ℤ) (rs : List (List ℕ)) (r : List ℕ)
    (hr : r ∈ mergePairs tset pt rs) (x : ℕ) (hx : x ∈ r) : x ∈ rs.flatten := by
  have h1 : x ∈ (mergePairs tset pt rs).flatten := List.mem_flatten.mpr ⟨r, hr, hx⟩
  exact (mergePairs_join_perm tset pt rs).mem_iff.mp h1

theorem mergePairs_inv (tset pt : ℕ → ℤ) :
    ∀ rs : List (List ℕ), RunsInv tset pt rs → RunsInv tset pt (mergePairs tset pt rs) := by
  intro rs
  induction rs using mergePairs.induct tset pt with
  | case1 r1 r2 rest ih =>
    intro hinv
    obtain ⟨hruns, hblocks⟩ := hinv
    rcases List.pairwise_cons.mp hblocks with ⟨hb1, hblocks2⟩
    rcases List.pairwise_cons.mp hblocks2 with ⟨hb2, hblocks3⟩
    have hinv3 : RunsInv tset pt rest :=
      ⟨fun r hr => hruns r (List.mem_cons_of_mem r1 (List.mem_cons_of_mem r2 hr)), hblocks3⟩
    obtain ⟨ih1, ih2⟩ := ih hinv3
    constructor
    · intro r hr
      simp only [mergePairs] at hr
      rcases List.mem_cons.mp hr with h | h
      · subst h
        refine mergeRuns_pairwise tset pt _ r1 r2 le_rfl
          (hruns r1 (List.mem_cons_self r1 _))
          (hruns r2 (List.mem_cons_of_mem r1 (List.mem_cons_self r2 rest))) ?_
        intro a ha b hb _ _
        exact hb1 r2 (List.mem_cons_self r2 rest) a ha b hb
      · exact ih1 r h
    · simp only [mergePairs]
      rw [List.pairwise_cons]
      constructor
      · intro r hr x hx y hy
        have hyj : y ∈ rest.flatten := mergePairs_mem_join tset pt rest r hr y hy
        rcases List.mem_flatten.mp hyj with ⟨rr, hrr, hyrr⟩
        rcases mergeRuns_mem tset pt r1 r2 x hx with h | h
        · exact hb1 rr (List.mem_cons_of_mem r2 hrr) x h y hyrr
        · exact hb2 rr hrr x h y hyrr
      · exact ih2
  | case2 rs h =>
    rcases rs with - | ⟨r1, rs2⟩
    · exact id
    rcases rs2 with - | ⟨r2, rest⟩
    · exact id
    · exact absurd rfl (h r1 r2 rest)

/-- The sort of given runs is strictly three-key sorted and a permutation
of the concatenated runs. -/
theorem mergeAll_sorted (tset pt : ℕ → ℤ) :
    ∀ (n : ℕ) (rs : List (List ℕ)), rs.length ≤ n → RunsInv tset pt rs →
      (mergeAll tset pt rs).Pairwise (Key3LT tset pt) ∧
        List.Perm (mergeAll tset pt rs) rs.flatten := by
  intro n
  induction n with
  | zero =>
    intro rs hlen hinv
    have h : rs = [] := by
      cases rs
      · rfl
      · simp at hlen
    subst h
    constructor
    · simp only [mergeAll]
      exact List.Pairwise.nil
    · simp only [mergeAll]
      simp
  | succ n ih =>
    intro rs hlen hinv
    rcases rs with - | ⟨r1, rs2⟩
    · constructor
      · simp only [mergeAll]
        exact List.Pairwise.nil
      · simp only [mergeAll]
        simp
    rcases rs2 with - | ⟨r2, rest⟩
    · constructor
      · simp only [mergeAll]
        exact hinv.1 r1 (List.mem_cons_self r1 [])
      · simp only [mergeAll]
        simp
    · have hlen2 : (mergePairs tset pt (r1 :: r2 :: rest)).length ≤ n := by
        have h1 := mergePairs_length tset pt rest
        simp only [mergePairs, List.length_cons]
        simp only [List.length_cons] at hlen
        omega
      obtain ⟨h1, h2⟩ := ih (mergePairs tset pt (r1 :: r2 :: rest)) hlen2
        (mergePairs_inv tset pt _ hinv)
      refine ⟨?_, ?_⟩
      · simp only [mergeAll]
        exact h1
      · simp only [mergeAll]
        exact h2.trans (mergePairs_join_perm tset pt _)

/-- C2: after the two-key merge sort from per-k-mer buckets — each bucket
already `(set, posTarget)`-sorted, buckets being consecutive index blocks —
the resulting index permutation `perm = mergeAll` (through which the reorder
pass `reorder` gathers all five per-hit arrays in one pass) satisfies: for
every pair of positions `j < k`, either `tId[j] < tId[k]`, or the target
ids are equal and `tPos[j] ≤ tPos[k]`; when both keys tie the original
bucket order is preserved (the sort is stable: the original indices appear
in increasing order); and `perm` is a permutation of the concatenated
buckets. -/
theorem claim2_thm (tset pt : ℕ → ℤ) (runs : List (List ℕ))
    (hrun : ∀ r ∈ runs, r.Pairwise (fun a b => KeyLE tset pt a b ∧ a < b))
    (hblocks : runs.Pairwise (fun r1 r2 => ∀ a ∈ r1, ∀ b ∈ r2, a < b)) :
    (∀ (j k : ℕ) (hj : j < (mergeAll tset pt runs).length)
        (hk : k < (mergeAll tset pt runs).length), j < k →
      (tset ((mergeAll tset pt runs).get ⟨j, hj⟩) <
          tset ((mergeAll tset pt runs).get ⟨k, hk⟩) ∨
        (tset ((mergeAll tset pt runs).get ⟨j, hj⟩) =
            tset ((mergeAll tset pt runs).get ⟨k, hk⟩) ∧
          pt ((mergeAll tset pt runs).get ⟨j, hj⟩) ≤
            pt ((mergeAll tset pt runs).get ⟨k, hk⟩))) ∧
      (tset ((mergeAll tset pt runs).get ⟨j, hj⟩) =
          tset ((mergeAll tset pt runs).get ⟨k, hk⟩) →
        pt ((mergeAll tset pt runs).get ⟨j, hj⟩) =
          pt ((mergeAll tset pt runs).get ⟨k, hk⟩) →
        (mergeAll tset pt runs).get ⟨j, hj⟩ < (mergeAll tset pt runs).get ⟨k, hk⟩)) ∧
    List.Perm (mergeAll tset pt runs) runs.flatten := by
  have hinv : RunsInv tset pt runs := by
    constructor
    · intro r hr
      refine (hrun r hr).imp ?_
      intro a b hab
      obtain ⟨h1, h2⟩ := hab
      unfold KeyLE at h1
      unfold Key3LT
      omega
    · exact hblocks
  obtain ⟨h1, h2⟩ := mergeAll_sorted tset pt runs.length runs le_rfl hinv
  refine ⟨?_, h2⟩
  intro j k hj hk hjk
  have h3 := List.pairwise_iff_get.mp h1 ⟨j, hj⟩ ⟨k, hk⟩ hjk
  unfold Key3LT at h3
  exact ⟨by omega, by omega⟩
/-- Concrete two-bucket input for the sort witness: keys
`(1,5), (2,1)` in bucket `[0,1]` and `(1,7), (2,0)` in bucket `[2,3]`. -/
def exTset : ℕ → ℤ := fun j =>
  if j = 0 then 1 else if j = 1 then 2 else if j = 2 then 1 else 2

/-- Target positions of the sort-witness hits. -/
def exPt : ℕ → ℤ := fun j =>
  if j = 0 then 5 else if j = 1 then 1 else if j = 2 then 7 else 0

/-- The two sorted buckets of the sort witness. -/
def exRuns : List (List ℕ) := [[0, 1], [2, 3]]

/-- Witness for C2 at the concrete two-bucket input. -/
theorem claim2_witness :
    (∀ (j k : ℕ) (hj : j < (mergeAll exTset exPt exRuns).length)
        (hk : k < (mergeAll exTset exPt exRuns).length), j < k →
      (exTset ((mergeAll exTset exPt exRuns).get ⟨j, hj⟩) <
          exTset ((mergeAll exTset exPt exRuns).get ⟨k, hk⟩) ∨
        (exTset ((mergeAll exTset exPt exRuns).get ⟨j, hj⟩) =
            exTset ((mergeAll exTset exPt exRuns).get ⟨k, hk⟩) ∧
          exPt ((mergeAll exTset exPt exRuns).get ⟨j, hj⟩) ≤
            exPt ((mergeAll exTset exPt exRuns).get ⟨k, hk⟩))) ∧
      (exTset ((mergeAll exTset exPt exRuns).get ⟨j, hj⟩) =
          exTset ((mergeAll exTset exPt exRuns).get ⟨k, hk⟩) →
        exPt ((mergeAll exTset exPt exRuns).get ⟨j, hj⟩) =
          exPt ((mergeAll exTset exPt exRuns).get ⟨k, hk⟩) →
        (mergeAll exTset exPt exRuns).get ⟨j, hj⟩ <
          (mergeAll exTset exPt exRuns).get ⟨k, hk⟩)) ∧
    List.Perm (mergeAll exTset exPt exRuns) exRuns.flatten :=
  claim2_thm exTset exPt exRuns (by decide) (by decide)

/-! ### Adjacency collapse (lines 297–336)

Inputs are the sorted per-hit arrays; `keep`, `origin`, `len`, `score` are
the mutable per-hit state, `k` the scан window start ("previous position"). -/

structure CollapseInput where
  s : ℕ
  posQuery : ℕ → ℤ
  posTarget : ℕ → ℤ
  set : ℕ → ℤ
  addScore : ℕ → ℚ
  score0 : ℕ → ℚ
  K : ℤ
  step : ℤ

structure CollapseState where
  keep : ℕ → Bool
  origin : ℕ → ℕ
  len : ℕ → ℤ
  score : ℕ → ℚ
  k : ℕ

/-- `len[j] = K`, `origin[j] = j`, `keep[j] = 1` (lines 301–305). -/
def collapseInit (inp : CollapseInput) : CollapseState :=
  { keep := fun _ => true
    origin := fun j => j
    len := fun _ => inp.K
    score := inp.score0
    k := 0 }

/-- The inner scan of lines 313–332 for current position `c`: walk `j`
upward from the window start; advance the window past `j` when
`deltaTarget > step`; report a merge partner when `deltaTarget == step` and
`deltaQuery == step`; stop on `deltaTarget < step` (the code's
`deltaTarget == 0` case).  Returns the final window start and the merge
partner, if any. -/
def collapseScan (inp : CollapseInput) (c : ℕ) : List ℕ → ℕ → ℕ × Option ℕ
  | [], k => (k, none)
  | j :: js, k =>
    let deltaT := inp.posTarget c - inp.posTarget j
    if inp.step < deltaT then collapseScan inp c js (j + 1)
    else if deltaT = inp.step then
      if inp.posQuery c - inp.posQuery j = inp.step then (k, some j)
      else collapseScan inp c js k
    else (k, none)

/-- One iteration of the outer collapse loop (lines 310–336) for current
position `c`: on a target switch restart the window at `c`; otherwise scan,
and on a merge drop `c`, attribute it to `origin[j]`, lengthen the origin by
`step` and add `extendScore[c]` to the origin's score (lines 320–327). -/
def collapseIter (inp : CollapseInput) (st : CollapseState) (c : ℕ) : CollapseState :=
  if inp.set st.k = inp.set c then
    let res := collapseScan inp c (List.range' st.k (c - st.k)) st.k
    match res.2 with
    | none => { st with k := res.1 }
    | some j =>
      { keep := Function.update st.keep c false
        origin := Function.update st.origin c (st.origin j)
        len := Function.update st.len (st.origin j) (st.len (st.origin j) + inp.step)
        score := Function.update st.score (st.origin j) (st.score (st.origin j) + inp.addScore c)
        k := res.1 }
  else { st with k := c }

/-- The collapse after processing current positions `1, …, t`. -/
def collapsePartial (inp : CollapseInput) (t : ℕ) : CollapseState :=
  (List.range' 1 t).foldl (collapseIter inp) (collapseInit inp)

/-- The whole adjacency-collapse pass of lines 297–336. -/
def collapseRun (inp : CollapseInput) : CollapseState :=
  collapsePartial inp (inp.s - 1)

/-- The hits entering the collapse are sorted by `(set, posTarget)`. -/
def SortedHits (inp : CollapseInput) : Prop :=
  ∀ a b, a < b → b < inp.s →
    inp.set a < inp.set b ∨ (inp.set a = inp.set b ∧ inp.posTarget a ≤ inp.posTarget b)

theorem SortedHits.set_le {inp : CollapseInput} (h : SortedHits inp)
    {a b : ℕ} (hab : a ≤ b) (hb : b < inp.s) : inp.set a ≤ inp.set b := by
  rcases Nat.lt_or_ge a b with hlt | hge
  · rcases h a b hlt hb with h1 | h1
    · exact le_of_lt h1
    · exact le_of_eq h1.1
  · have : a = b := by omega
    rw [this]

theorem SortedHits.set_sandwich {inp : CollapseInput} (h : SortedHits inp)
    {x y z : ℕ} (hxy : x ≤ y) (hyz : y ≤ z) (hz : z < inp.s)
    (hxz : inp.set x = inp.set z) : inp.set y = inp.set x := by
  have h1 := h.set_le hxy (by omega)
  have h2 := h.set_le hyz hz
  omega

theorem SortedHits.posTarget_le {inp : CollapseInput} (h : SortedHits inp)
    {a b : ℕ} (hab : a ≤ b) (hb : b < inp.s) (hset : inp.set a = inp.set b) :
    inp.posTarget a ≤ inp.posTarget b := by
  rcases Nat.lt_or_ge a b with hlt | hge
  · rcases h a b hlt hb with h1 | h1
    · omega
    · exact h1.2
  · have : a = b := by omega
    rw [this]

/-- If the window `[k, c)` contains an index `a` with both deltas equal to
`step`, and every index of the window left of `a` is at target distance
`≥ step`, the scan reports a merge. -/
theorem collapseScan_finds (inp : CollapseInput) (c a : ℕ)
    (hdT : inp.posTarget c - inp.posTarget a = inp.step)
    (hdQ : inp.posQuery c - inp.posQuery a = inp.step) :
    ∀ (js : List ℕ) (k : ℕ), js.Pairwise (· < ·) → a ∈ js →
      (∀ j ∈ js, j < a → inp.step ≤ inp.posTarget c - inp.posTarget j) →
      ((collapseScan inp c js k).2).isSome := by
  intro js
  induction js with
  | nil => intro k _ hmem _; exact absurd hmem (List.not_mem_nil a)
  | cons j js ih =>
    intro k hpair hmem hlow
    rcases List.pairwise_cons.mp hpair with ⟨hj, hpair2⟩
    by_cases hja : j = a
    · subst hja
      simp only [collapseScan]
      rw [if_neg (by omega), if_pos hdT, if_pos hdQ]
      rfl
    · have hmem2 : a ∈ js := by
        rcases List.mem_cons.mp hmem with h | h
        · exact absurd h.symm hja
        · exact h
      have hja2 : j < a := hj a hmem2
      have hjlow : inp.step ≤ inp.posTarget c - inp.posTarget j :=
        hlow j (List.mem_cons_self j js) hja2
      simp only [collapseScan]
      by_cases h1 : inp.step < inp.posTarget c - inp.posTarget j
      · rw [if_pos h1]
        exact ih (j + 1) hpair2 hmem2 (fun x hx hxa => hlow x (List.mem_cons_of_mem j hx) hxa)
      · have h2 : inp.posTarget c - inp.posTarget j = inp.step := by omega
        rw [if_neg h1, if_pos h2]
        by_cases h3 : inp.posQuery c - inp.posQuery j = inp.step
        · rw [if_pos h3]; rfl
        · rw [if_neg h3]
          exact ih k hpair2 hmem2 (fun x hx hxa => hlow x (List.mem_cons_of_mem j hx) hxa)

/-- The scan's window result is the old start or `j + 1` for a processed
`j` whose target distance exceeded `step`. -/
theorem collapseScan_k_cases (inp : CollapseInput) (c : ℕ) :
    ∀ (js : List ℕ) (k : ℕ),
      (collapseScan inp c js k).1 = k ∨
      ∃ j ∈ js, (collapseScan inp c js k).1 = j + 1 ∧
        inp.step < inp.posTarget c - inp.posTarget j := by
  intro js
  induction js with
  | nil => intro k; exact Or.inl rfl
  | cons j js ih =>
    intro k
    simp only [collapseScan]
    by_cases h1 : inp.step < inp.posTarget c - inp.posTarget j
    · rw [if_pos h1]
      rcases ih (j + 1) with h | ⟨x, hx, he, hd⟩
      · exact Or.inr ⟨j, List.mem_cons_self j js, h, h1⟩
      · exact Or.inr ⟨x, List.mem_cons_of_mem j hx, he, hd⟩
    · rw [if_neg h1]
      by_cases h2 : inp.posTarget c - inp.posTarget j = inp.step
      · rw [if_pos h2]
        by_cases h3 : inp.posQuery c - inp.posQuery j = inp.step
        · rw [if_pos h3]; exact Or.inl rfl
        · rw [if_neg h3]
          rcases ih k with h | ⟨x, hx, he, hd⟩
          · exact Or.inl h
          · exact Or.inr ⟨x, List.mem_cons_of_mem j hx, he, hd⟩
      · rw [if_neg h2]; exact Or.inl rfl

/-- The collapse iteration for `c` changes `keep` at most at index `c`. -/
theorem collapseIter_keep_frame (inp : CollapseInput) (st : CollapseState) (c m : ℕ)
    (hm : m ≠ c) : (collapseIter inp st c).keep m = st.keep m := by
  simp only [collapseIter]
  split
  · split
    · rfl
    · exact Function.update_noteq hm _ _
  · rfl

theorem collapsePartial_succ (inp : CollapseInput) (t : ℕ) :
    collapsePartial inp (t + 1) = collapseIter inp (collapsePartial inp t) (1 + t) := by
  unfold collapsePartial
  rw [List.range'_1_concat, List.foldl_append]
  rfl

/-- `keep[m]` is stable once the outer loop has passed `m`. -/
theorem collapsePartial_keep_stable (inp : CollapseInput) (t₁ t₂ m : ℕ)
    (h : t₁ ≤ t₂) (hm : m ≤ t₁) :
    (collapsePartial inp t₂).keep m = (collapsePartial inp t₁).keep m := by
  induction t₂ with
  | zero =>
    have ht : t₁ = 0 := by omega
    subst ht
    rfl
  | succ t ih =>
    by_cases ht : t₁ = t + 1
    · subst ht; rfl
    · rw [collapsePartial_succ,
        collapseIter_keep_frame inp (collapsePartial inp t) (1 + t) m (by omega)]
      exact ih (by omega)

/-- Window invariant of the collapse loop: after processing positions up to
`t`, the window start is at most `t`, lies in `t`'s target block, and every
index left of it in the same block is at target distance `> step` from `t`. -/
theorem collapse_window_inv (inp : CollapseInput) (hsorted : SortedHits inp) :
    ∀ t, t < inp.s →
      (collapsePartial inp t).k ≤ t ∧
      inp.set ((collapsePartial inp t).k) = inp.set t ∧
      (∀ a, a < (collapsePartial inp t).k → inp.set a = inp.set t →
        inp.step < inp.posTarget t - inp.posTarget a) := by
  intro t
  induction t with
  | zero => exact fun _ => ⟨le_rfl, rfl, fun a ha _ => absurd ha (Nat.not_lt_zero a)⟩
  | succ t ih =>
    intro hts
    obtain ⟨hk, hkset, hkfar⟩ := ih (by omega)
    rw [collapsePartial_succ]
    have h1t : 1 + t = t + 1 := by omega
    rw [h1t]
    set st := collapsePartial inp t with hst
    by_cases hset : inp.set st.k = inp.set (t + 1)
    · have hkres : ∀ res : ℕ × Option ℕ,
          res = collapseScan inp (t + 1) (List.range' st.k (t + 1 - st.k)) st.k →
          res.1 ≤ t + 1 ∧ inp.set res.1 = inp.set (t + 1) ∧
          (∀ a, a < res.1 → inp.set a = inp.set (t + 1) →
            inp.step < inp.posTarget (t + 1) - inp.posTarget a) := by
        intro res hres
        rcases collapseScan_k_cases inp (t + 1) (List.range' st.k (t + 1 - st.k)) st.k
          with hcase | ⟨j, hjmem, hje, hjd⟩
        · rw [← hres] at hcase
          rw [hcase]
          refine ⟨by omega, hset, ?_⟩
          intro a ha haset
          have h1 : inp.set a ≤ inp.set t := hsorted.set_le (by omega) (by omega)
          have h2 : inp.set t ≤ inp.set (t + 1) := hsorted.set_le (by omega) hts
          have haset2 : inp.set a = inp.set t := by omega
          have hfar := hkfar a ha haset2
          have hmono : inp.posTarget t ≤ inp.posTarget (t + 1) :=
            hsorted.posTarget_le (Nat.le_succ t) hts (by omega)
          omega
        · rcases List.mem_range'_1.mp hjmem with ⟨hj1, hj2⟩
          rw [← hres] at hje
          rw [hje]
          have hjset : inp.set j = inp.set (t + 1) := by
            have := hsorted.set_sandwich hj1 (by omega : j ≤ t + 1) hts hset
            omega
          refine ⟨by omega, ?_, ?_⟩
          · have := hsorted.set_sandwich (by omega : st.k ≤ j + 1)
              (by omega : j + 1 ≤ t + 1) hts hset
            omega
          · intro a ha haset
            have haj : a ≤ j := by omega
            have := hsorted.posTarget_le haj (by omega) (by omega : inp.set a = inp.set j)
            omega
      refine ⟨?_, ?_, ?_⟩ <;>
      · simp only [collapseIter, if_pos hset]
        rcases hmatch : (collapseScan inp (t + 1) (List.range' st.k (t + 1 - st.k)) st.k).2
          with - | j
        all_goals
          simp only [hmatch]
          have := hkres _ rfl
          first
            | exact this.1
            | exact this.2.1
            | exact this.2.2
    · refine ⟨?_, ?_, ?_⟩
      · simp only [collapseIter, if_neg hset]
        exact le_rfl
      · simp only [collapseIter, if_neg hset]
      · simp only [collapseIter, if_neg hset]
        intro a ha haset
        exfalso
        have h1 : inp.set a ≤ inp.set t := hsorted.set_le (by omega) (by omega)
        have h2 : inp.set t ≤ inp.set (t + 1) := hsorted.set_le (by omega) hts
        rw [hkset] at hset
        omega

/-- C5: after the adjacency collapse of a query's sorted hits, every
adjacent pair was merged: whenever two hits of the same target are at
target distance exactly `step` with query distance exactly `step`, the
later hit is dropped (`keep = 0`).  In particular no two KEPT hits on the
same target have target positions differing by exactly `step` together
with query positions differing by exactly `step`. -/
theorem claim5_thm (inp : CollapseInput) (hsorted : SortedHits inp) :
    ∀ a b, a < b → b < inp.s →
      inp.set a = inp.set b →
      inp.posTarget b - inp.posTarget a = inp.step →
      inp.posQuery b - inp.posQuery a = inp.step →
      (collapseRun inp).keep b = false := by
  intro a b hab hbs hset hdT hdQ
  have hb1 : 1 ≤ b := by omega
  obtain ⟨hk, hkset, hkfar⟩ := collapse_window_inv inp hsorted (b - 1) (by omega)
  set st := collapsePartial inp (b - 1) with hst
  have hsetb1 : inp.set (b - 1) = inp.set b := by
    have := hsorted.set_sandwich (by omega : a ≤ b - 1) (by omega : b - 1 ≤ b) hbs hset
    omega
  have hak : st.k ≤ a := by
    by_contra hc
    push_neg at hc
    have haset : inp.set a = inp.set (b - 1) := by rw [hsetb1]; exact hset
    have hfar := hkfar a hc haset
    have hmono : inp.posTarget (b - 1) ≤ inp.posTarget b :=
      hsorted.posTarget_le (by omega) hbs hsetb1
    omega
  have hsetkb : inp.set st.k = inp.set b := by rw [hkset, hsetb1]
  have hkeepb : (collapsePartial inp b).keep b = false := by
    have hsucc : collapsePartial inp b = collapseIter inp st b := by
      have : b - 1 + 1 = b := by omega
      rw [← this, collapsePartial_succ]
      congr 1
      omega
    rw [hsucc]
    simp only [collapseIter, if_pos hsetkb]
    have hfind := collapseScan_finds inp b a hdT hdQ
      (List.range' st.k (b - st.k)) st.k
      (List.pairwise_lt_range' st.k (b - st.k))
      (List.mem_range'_1.mpr ⟨hak, by omega⟩)
      (fun j hj hja => by
        rcases List.mem_range'_1.mp hj with ⟨hj1, hj2⟩
        have hjset : inp.set j = inp.set b := by
          have := hsorted.set_sandwich hj1 (by omega : j ≤ b) hbs hsetkb
          omega
        have := hsorted.posTarget_le (le_of_lt hja) (by omega)
          (by omega : inp.set j = inp.set a)
        omega)
    rcases hmatch : (collapseScan inp b (List.range' st.k (b - st.k)) st.k).2 with - | j
    · rw [hmatch] at hfind
      exact absurd hfind (by simp)
    · simp only [hmatch]
      exact Function.update_same _ _ _
  have hstable := collapsePartial_keep_stable inp b (inp.s - 1) b (by omega) le_rfl
  rw [collapseRun, hstable]
  exact hkeepb

/-- Concrete collapse input with one adjacent pair: two hits of the same
target at query and target distance `1 = step`. -/
def exCollapse : CollapseInput :=
  { s := 2
    posQuery := fun j => if j = 0 then 1 else 2
    posTarget := fun j => if j = 0 then 1 else 2
    set := fun _ => 1
    addScore := fun _ => 1
    score0 := fun _ => 3
    K := 3
    step := 1 }

/-- Witness for C5 at the concrete input `exCollapse`: the pair `(0, 1)` is
adjacent, and the collapse drops hit `1`. -/
theorem claim5_witness :
    SortedHits exCollapse ∧ (collapseRun exCollapse).keep 1 = false := by
  have hs : SortedHits exCollapse := by
    intro a b hab hbs
    simp only [exCollapse] at hbs
    have ha : a = 0 := by omega
    have hb : b = 1 := by omega
    subst ha
    subst hb
    right
    exact ⟨rfl, by norm_num [exCollapse]⟩
  exact ⟨hs, claim5_thm exCollapse hs 0 1 (by omega) (by norm_num [exCollapse])
    rfl (by norm_num [exCollapse]) (by norm_num [exCollapse])⟩

/-! ### Result selector, output mode 1 — all chains (lines 431–459) -/

/-- One iteration of the `maxOrigin` loop (lines 435–444).  A `none` state
signals that `score[maxOrigin[origin[j]]]` was about to be read while
`maxOrigin[origin[j]]` held `NA_INTEGER` (or was never written), which is
undefined behaviour in the C code. -/
def sel1Step (score : ℕ → ℚ) (origin : ℕ → ℕ) (mo : Option (ℕ → Option ℕ)) (j : ℕ) :
    Option (ℕ → Option ℕ) :=
  match mo with
  | none => none
  | some m =>
    if origin j = j then some (Function.update m j (some j))
    else
      match m (origin j) with
      | none => none
      | some b =>
        if score b < score j then
          some (Function.update (Function.update m (origin j) (some j)) j none)
        else some (Function.update m j none)

/-- The `maxOrigin` array after the loop of lines 435–444. -/
def sel1MaxOrigin (score : ℕ → ℚ) (origin : ℕ → ℕ) (s : ℕ) : Option (ℕ → Option ℕ) :=
  (List.range s).foldl (sel1Step score origin) (some fun _ => none)

/-- The selected result indices of output mode 1 (lines 445–459):
`keep[maxOrigin[j]] = 1` for every `j` with `maxOrigin[j] ≠ NA`, then the
kept indices collected in increasing order. -/
def sel1Res (score : ℕ → ℚ) (origin : ℕ → ℕ) (s : ℕ) : Option (List ℕ) :=
  match sel1MaxOrigin score origin s with
  | none => none
  | some m =>
    some ((List.range s).filter fun idx => (List.range s).any fun j => m j == some idx)

/-- Invariant of the `maxOrigin` loop after processing indices `0, …, t-1`:
non-roots (and unprocessed slots) hold `NA`; each processed root `r` holds
the first index attaining the maximal score of its origin class so far. -/
def Sel1Inv (score : ℕ → ℚ) (origin : ℕ → ℕ) (t : ℕ) (m : ℕ → Option ℕ) : Prop :=
  (∀ j, origin j ≠ j ∨ t ≤ j → m j = none) ∧
  (∀ r, r < t → origin r = r →
    ∃ b, m r = some b ∧ origin b = r ∧ b < t ∧
      (∀ i, i < t → origin i = r → score i ≤ score b) ∧
      (∀ i, i < b → origin i = r → score i < score b))

theorem sel1_fold (score : ℕ → ℚ) (origin : ℕ → ℕ)
    (horig : ∀ j, origin j ≤ j ∧ origin (origin j) = origin j) :
    ∀ t, ∃ m, (List.range t).foldl (sel1Step score origin) (some fun _ => none) = some m ∧
      Sel1Inv score origin t m := by
  intro t
  induction t with
  | zero =>
    exact ⟨_, rfl, fun j _ => rfl, fun r hr _ => absurd hr (Nat.not_lt_zero r)⟩
  | succ t ih =>
    obtain ⟨m, hm, inv⟩ := ih
    rw [List.range_succ, List.foldl_append, hm]
    simp only [List.foldl_cons, List.foldl_nil]
    by_cases hroot : origin t = t
    · refine ⟨Function.update m t (some t), by simp [sel1Step, hroot], ?_, ?_⟩
      · intro j hj
        have hjt : j ≠ t := by
          rintro rfl
          rcases hj with h | h
          · exact h hroot
          · omega
        rw [Function.update_noteq hjt]
        refine inv.1 j ?_
        rcases hj with h | h
        · exact Or.inl h
        · exact Or.inr (by omega)
      · intro r hr hrr
        by_cases hrt : r = t
        · refine ⟨r, ?_, hrr, by omega, ?_, ?_⟩
          · rw [hrt]; exact Function.update_same _ _ _
          · intro i hi hio
            have h1 := (horig i).1
            rw [hio] at h1
            rcases Nat.lt_succ_iff_lt_or_eq.mp hi with h | h
            · omega
            · rw [show i = r by omega]
          · intro i hi hio
            have h1 := (horig i).1
            rw [hio] at h1
            omega
        · obtain ⟨b, hb, hob, hbt, hmax, hfirst⟩ := inv.2 r (by omega) hrr
          refine ⟨b, by rw [Function.update_noteq hrt]; exact hb, hob, by omega, ?_, hfirst⟩
          intro i hi hio
          rcases Nat.lt_succ_iff_lt_or_eq.mp hi with h | h
          · exact hmax i h hio
          · subst h
            exact absurd hio (by rw [hroot]; omega)
    · have hr0 : origin t < t := lt_of_le_of_ne (horig t).1 hroot
      obtain ⟨b, hb, hob, hbt, hmax, hfirst⟩ := inv.2 (origin t) hr0 (horig t).2
      by_cases hsc : score b < score t
      · refine ⟨Function.update (Function.update m (origin t) (some t)) t none,
          by simp [sel1Step, hroot, hb, hsc], ?_, ?_⟩
        · intro j hj
          by_cases hjt : j = t
          · subst hjt; exact Function.update_same _ _ _
          · rw [Function.update_noteq hjt]
            by_cases hjr : j = origin t
            · exfalso
              subst hjr
              rcases hj with h | h
              · exact h (horig t).2
              · omega
            · rw [Function.update_noteq hjr]
              refine inv.1 j ?_
              rcases hj with h | h
              · exact Or.inl h
              · exact Or.inr (by omega)
        · intro r hr hrr
          have hrt : r ≠ t := by rintro rfl; exact hroot hrr
          by_cases hrr0 : r = origin t
          · subst hrr0
            refine ⟨t, ?_, rfl, by omega, ?_, ?_⟩
            · rw [Function.update_noteq hrt, Function.update_same]
            · intro i hi hio
              rcases Nat.lt_succ_iff_lt_or_eq.mp hi with h | h
              · exact le_of_lt (lt_of_le_of_lt (hmax i h hio) hsc)
              · subst h; exact le_rfl
            · intro i hi hio
              exact lt_of_le_of_lt (hmax i hi hio) hsc
          · obtain ⟨b2, hb2, hob2, hb2t, hmax2, hfirst2⟩ := inv.2 r (by omega) hrr
            refine ⟨b2, ?_, hob2, by omega, ?_, hfirst2⟩
            · rw [Function.update_noteq hrt, Function.update_noteq hrr0]
              exact hb2
            · intro i hi hio
              rcases Nat.lt_succ_iff_lt_or_eq.mp hi with h | h
              · exact hmax2 i h hio
              · subst h; exact absurd hio (fun he => hrr0 he.symm)
      · refine ⟨Function.update m t none, by simp [sel1Step, hroot, hb, hsc], ?_, ?_⟩
        · intro j hj
          by_cases hjt : j = t
          · subst hjt; exact Function.update_same _ _ _
          · rw [Function.update_noteq hjt]
            refine inv.1 j ?_
            rcases hj with h | h
            · exact Or.inl h
            · exact Or.inr (by omega)
        · intro r hr hrr
          have hrt : r ≠ t := by rintro rfl; exact hroot hrr
          by_cases hrr0 : r = origin t
          · subst hrr0
            refine ⟨b, by rw [Function.update_noteq hrt]; exact hb, hob, by omega, ?_, hfirst⟩
            intro i hi hio
            rcases Nat.lt_succ_iff_lt_or_eq.mp hi with h | h
            · exact hmax i h hio
            · subst h; exact not_lt.mp hsc
          · obtain ⟨b2, hb2, hob2, hb2t, hmax2, hfirst2⟩ := inv.2 r (by omega) hrr
            refine ⟨b2, by rw [Function.update_noteq hrt]; exact hb2, hob2, by omega, ?_, hfirst2⟩
            intro i hi hio
            rcases Nat.lt_succ_iff_lt_or_eq.mp hi with h | h
            · exact hmax2 i h hio
            · subst h; exact absurd hio (fun he => hrr0 he.symm)

/-- Membership characterization of the mode-1 result set: the loop never
reads `NA`, and an index is kept exactly when it is the first index
attaining the maximal score of its origin class. -/
theorem sel1Res_char (score : ℕ → ℚ) (origin : ℕ → ℕ) (s : ℕ)
    (horig : ∀ j, origin j ≤ j ∧ origin (origin j) = origin j) :
    ∃ res, sel1Res score origin s = some res ∧
      ∀ idx, idx ∈ res ↔ (idx < s ∧
        (∀ i, i < s → origin i = origin idx → score i ≤ score idx) ∧
        (∀ i, i < idx → origin i = origin idx → score i < score idx)) := by
  obtain ⟨m, hm, inv⟩ := sel1_fold score origin horig s
  refine ⟨_, by rw [sel1Res, sel1MaxOrigin, hm], ?_⟩
  intro idx
  constructor
  · intro hmem
    rw [List.mem_filter] at hmem
    obtain ⟨hrange, hany⟩ := hmem
    rw [List.any_eq_true] at hany
    obtain ⟨j, hj, hjeq⟩ := hany
    rw [beq_iff_eq] at hjeq
    have hjroot : origin j = j ∧ j < s := by
      by_contra hc
      rw [Decidable.not_and_iff_or_not] at hc
      have : m j = none := by
        refine inv.1 j ?_
        rcases hc with h | h
        · exact Or.inl h
        · exact Or.inr (by omega)
      rw [this] at hjeq
      exact Option.noConfusion hjeq
    obtain ⟨b, hb, hob, hbs, hmax, hfirst⟩ := inv.2 j hjroot.2 hjroot.1
    rw [hb] at hjeq
    have hbidx : b = idx := Option.some.inj hjeq
    subst hbidx
    rw [hob]
    exact ⟨hbs, hmax, hfirst⟩
  · rintro ⟨hidx, hmax, hfirst⟩
    have hrs : origin idx ≤ idx := (horig idx).1
    obtain ⟨b, hb, hob, hbs, hbmax, hbfirst⟩ :=
      inv.2 (origin idx) (by omega) (horig idx).2
    have hscore1 : score idx ≤ score b := hbmax idx hidx rfl
    have hscore2 : score b ≤ score idx := hmax b hbs (by rw [hob])
    have hbeq : b = idx := by
      rcases lt_trichotomy b idx with h | h | h
      · exact absurd (hfirst b h (by rw [hob])) (not_lt.mpr hscore1)
      · exact h
      · exact absurd (hbfirst idx h rfl) (not_lt.mpr hscore2)
    rw [List.mem_filter]
    refine ⟨List.mem_range.mpr hidx, ?_⟩
    rw [List.any_eq_true]
    exact ⟨origin idx, List.mem_range.mpr (by omega), by rw [hb, hbeq]; simp⟩

/-- Two first-argmax indices of the same origin class coincide. -/
theorem argmaxFirst_unique (score : ℕ → ℚ) (origin : ℕ → ℕ) (s a b : ℕ)
    (has : a < s) (hbs : b < s) (hab : origin a = origin b)
    (hamax : ∀ i, i < s → origin i = origin a → score i ≤ score a)
    (hafirst : ∀ i, i < a → origin i = origin a → score i < score a)
    (hbmax : ∀ i, i < s → origin i = origin b → score i ≤ score b)
    (hbfirst : ∀ i, i < b → origin i = origin b → score i < score b) :
    a = b := by
  have h1 : score a ≤ score b := hbmax a has hab.symm.symm
  have h2 : score b ≤ score a := hamax b hbs hab.symm
  rcases lt_trichotomy a b with h | h | h
  · exact absurd (hbfirst a h hab) (not_lt.mpr h2)
  · exact h
  · exact absurd (hafirst b h hab.symm) (not_lt.mpr h1)

/-- C3, amended: in output mode 1 the selector retains exactly one
representative per chain origin — the FIRST index attaining the maximal
score among hits sharing that origin.  When two candidates have equal
scores the tie is broken in favour of the EARLIER index (the code replaces
the current best only on strictly greater score, line 438). -/
theorem claim3_thm (score : ℕ → ℚ) (origin : ℕ → ℕ) (s : ℕ)
    (horig : ∀ j, origin j ≤ j ∧ origin (origin j) = origin j) :
    ∃ res, sel1Res score origin s = some res ∧
      (∀ idx, idx ∈ res ↔ (idx < s ∧
        (∀ i, i < s → origin i = origin idx → score i ≤ score idx) ∧
        (∀ i, i < idx → origin i = origin idx → score i < score idx))) ∧
      (∀ r, r < s → origin r = r →
        ∃ idx, idx ∈ res ∧ origin idx = r ∧
          ∀ idx2, idx2 ∈ res → origin idx2 = r → idx2 = idx) := by
  obtain ⟨m, hm, inv⟩ := sel1_fold score origin horig s
  obtain ⟨res, hres, hchar⟩ := sel1Res_char score origin s horig
  refine ⟨res, hres, hchar, ?_⟩
  intro r hr hrr
  obtain ⟨b, hb, hob, hbs, hmax, hfirst⟩ := inv.2 r hr hrr
  refine ⟨b, ?_, hob, ?_⟩
  · rw [hchar b]
    exact ⟨hbs, fun i hi hio => hmax i hi (by rw [← hob]; exact hio),
      fun i hi hio => hfirst i hi (by rw [← hob]; exact hio)⟩
  · intro idx2 hidx2 hoidx2
    rw [hchar idx2] at hidx2
    exact argmaxFirst_unique score origin s idx2 b hidx2.1 hbs (by rw [hoidx2, hob])
      hidx2.2.1 hidx2.2.2
      (fun i hi hio => hmax i hi (by rw [← hob]; exact hio))
      (fun i hi hio => hfirst i hi (by rw [← hob]; exact hio))

/-- Constant score vector used in the tie-breaking counterexample. -/
def exScore3 : ℕ → ℚ := fun _ => 1

/-- Origin vector with hits `0` and `1` sharing origin `0`. -/
def exOrigin3 : ℕ → ℕ := fun j => if j = 1 then 0 else j

/-- Counterexample to C3 as stated: hits `0` and `1` share origin `0` and
have equal scores; the selector retains index `0` — the EARLIER index — so
the tie is not broken in favour of the later index as the claim asserts. -/
theorem claim3_counterexample :
    exOrigin3 1 = exOrigin3 0 ∧ exScore3 1 = exScore3 0 ∧
    sel1Res exScore3 exOrigin3 2 = some [0] := by
  refine ⟨by norm_num [exOrigin3], rfl, ?_⟩
  norm_num [sel1Res, sel1MaxOrigin, sel1Step, exScore3, exOrigin3,
    show List.range 2 = [0, 1] from rfl, Function.update_apply,
    List.filter, List.any]
  rfl

/-- Witness for C3's amended theorem at the concrete tied input. -/
theorem claim3_witness :
    ∃ res, sel1Res exScore3 exOrigin3 2 = some res ∧
      (∀ idx, idx ∈ res ↔ (idx < 2 ∧
        (∀ i, i < 2 → exOrigin3 i = exOrigin3 idx → exScore3 i ≤ exScore3 idx) ∧
        (∀ i, i < idx → exOrigin3 i = exOrigin3 idx → exScore3 i < exScore3 idx))) ∧
      (∀ r, r < 2 → exOrigin3 r = r →
        ∃ idx, idx ∈ res ∧ exOrigin3 idx = r ∧
          ∀ idx2, idx2 ∈ res → exOrigin3 idx2 = r → idx2 = idx) :=
  claim3_thm exScore3 exOrigin3 2
    (fun j => by by_cases h : j = 1 <;> simp [exOrigin3, h])

/-! ### Hit counting and the 32-bit overflow guard (lines 159–189, 619–646) -/

/-- Wrap a mathematical integer to a signed 32-bit value, the behaviour of
the `int` accumulation `s += counts[j]` (line 167). -/
def wrap32 (x : ℤ) : ℤ := (x + 2 ^ 31) % 2 ^ 32 - 2 ^ 31

/-- The count loop of lines 160–173 for one query: accumulate `num[w[j]]`
over unmasked positions into a signed 32-bit running total `s`; when the
wrapped total turns negative (`s < 0`, line 168) the loop aborts (`none`).
Masked positions (`NA_INTEGER`, modelled as `none`) contribute zero. -/
def gatherCount (num : ℤ → ℤ) : List (Option ℤ) → ℤ → Option ℤ
  | [], s => some s
  | w :: ws, s =>
    match w with
    | none => gatherCount num ws s
    | some c =>
      let s2 := wrap32 (s + num c)
      if s2 < 0 then none else gatherCount num ws s2

/-- The mathematical total number of hits of one query: the sum of
`num[w[j]]` over its unmasked k-mers. -/
def trueTotal (num : ℤ → ℤ) (w : List (Option ℤ)) : ℤ :=
  ((w.filterMap id).map num).sum

/-- One driver step per query (lines 140–173): once `abort` is non-zero the
query is skipped; an overflowing query at 0-based position `i` sets
`abort = i + 1`. -/
def driveStep (num : ℤ → ℤ) (ab : ℤ) (iq : ℕ × List (Option ℤ)) : ℤ :=
  if ab = 0 then
    match gatherCount num iq.2 0 with
    | none => (iq.1 : ℤ) + 1
    | some _ => ab
  else ab

/-- The sequential model of the parallel driver's `abort` state over the
whole query list. -/
def driveAbort (num : ℤ → ℤ) (queries : List (List (Option ℤ))) : ℤ :=
  (queries.enum).foldl (driveStep num) 0

/-- The call outcome (lines 619–646): when `abort` is non-zero every
per-query output is freed and the call raises the error carrying the abort
value — the 1-based index of the offending query — so no result arrays are
returned for any query; otherwise the assembled per-query results are
returned.  `results` stands for the outputs of the rest of the pipeline. -/
def searchIndexResult {α : Type} (num : ℤ → ℤ) (queries : List (List (Option ℤ)))
    (results : List α) : Except ℤ (List α) :=
  if driveAbort num queries = 0 then Except.ok results
  else Except.error (driveAbort num queries)

theorem wrap32_small {x : ℤ} (h1 : -2 ^ 31 ≤ x) (h2 : x < 2 ^ 31) : wrap32 x = x := by
  unfold wrap32
  omega

theorem wrap32_over {x : ℤ} (h1 : 2 ^ 31 ≤ x) (h2 : x < 2 ^ 32) :
    wrap32 x = x - 2 ^ 32 := by
  unfold wrap32
  omega

theorem trueTotal_nonneg (num : ℤ → ℤ) (hnum : ∀ c, 0 ≤ num c) :
    ∀ w : List (Option ℤ), 0 ≤ trueTotal num w := by
  intro w
  induction w with
  | nil => exact le_rfl
  | cons x ws ih =>
    cases x with
    | none =>
      unfold trueTotal at ih ⊢
      simpa using ih
    | some c =>
      unfold trueTotal at ih ⊢
      simp only [List.filterMap_cons, id, List.map_cons, List.sum_cons]
      have := hnum c
      omega

/-- Exactness of the overflow detection: starting from an in-range
non-negative total, the count loop aborts exactly when the mathematical
total exceeds `2^31 - 1` (each partial sum stays below `2^32`, so wrapping
always lands negative on the first overflow). -/
theorem gatherCount_none_iff (num : ℤ → ℤ)
    (hnum : ∀ c, 0 ≤ num c ∧ num c < 2 ^ 31) :
    ∀ (ws : List (Option ℤ)) (s : ℤ), 0 ≤ s → s < 2 ^ 31 →
      (gatherCount num ws s = none ↔ 2 ^ 31 ≤ s + trueTotal num ws) := by
  intro ws
  induction ws with
  | nil =>
    intro s h1 h2
    unfold gatherCount trueTotal
    simp only [List.filterMap_nil, List.map_nil, List.sum_nil, add_zero]
    constructor
    · intro h
      exact Option.noConfusion h
    · intro h
      omega
  | cons w ws ih =>
    intro s h1 h2
    cases w with
    | none =>
      unfold gatherCount
      rw [ih s h1 h2]
      unfold trueTotal
      simp
    | some c =>
      have hc := hnum c
      unfold gatherCount
      simp only []
      have htt : trueTotal num (some c :: ws) = num c + trueTotal num ws := by
        unfold trueTotal
        simp
      by_cases h : s + num c < 2 ^ 31
      · have hw : wrap32 (s + num c) = s + num c := wrap32_small (by omega) h
        rw [hw, if_neg (by omega)]
        rw [ih (s + num c) (by omega) h, htt]
        constructor
        · intro h3
          omega
        · intro h3
          omega
      · have hw : wrap32 (s + num c) = s + num c - 2 ^ 32 :=
          wrap32_over (by omega) (by omega)
        rw [hw, if_pos (by omega)]
        have hnn := trueTotal_nonneg num (fun x => (hnum x).1) ws
        rw [htt]
        constructor
        · intro _
          omega
        · intro _
          rfl

theorem driveAbort_stay (num : ℤ → ℤ) :
    ∀ (l : List (ℕ × List (Option ℤ))) (ab : ℤ), ab ≠ 0 →
      l.foldl (driveStep num) ab = ab := by
  intro l
  induction l with
  | nil => intro ab _; rfl
  | cons x l ih =>
    intro ab hab
    rw [List.foldl_cons]
    unfold driveStep
    rw [if_neg hab]
    exact ih ab hab

theorem driveAbort_first (num : ℤ → ℤ) (hnum : ∀ c, 0 ≤ num c ∧ num c < 2 ^ 31) :
    ∀ (qs : List (List (Option ℤ))) (j : ℕ) (hj : j < qs.length) (n : ℕ),
      (∀ i2 (h2 : i2 < j), trueTotal num (qs.get ⟨i2, by omega⟩) < 2 ^ 31) →
      2 ^ 31 ≤ trueTotal num (qs.get ⟨j, hj⟩) →
      (List.enumFrom n qs).foldl (driveStep num) 0 = (n : ℤ) + (j : ℤ) + 1 := by
  intro qs
  induction qs with
  | nil => intro j hj; simp at hj
  | cons q qs ih =>
    intro j hj n hfirst hover
    rw [List.enumFrom_cons, List.foldl_cons]
    cases j with
    | zero =>
      have h0 : (q :: qs).get ⟨0, hj⟩ = q := rfl
      rw [h0] at hover
      have hnone : gatherCount num q 0 = none := by
        rw [gatherCount_none_iff num hnum q 0 le_rfl (by norm_num)]
        omega
      have hstep : driveStep num 0 (n, q) = (n : ℤ) + 1 := by
        unfold driveStep
        rw [if_pos rfl, hnone]
      rw [hstep, driveAbort_stay num _ _ (by push_cast; omega)]
      push_cast
      ring
    | succ j2 =>
      have hj2 : j2 < qs.length := by simpa using hj
      have h0 : (q :: qs).get ⟨0, by omega⟩ = q := rfl
      have hq : trueTotal num q < 2 ^ 31 := by
        have := hfirst 0 (Nat.succ_pos j2)
        rwa [h0] at this
      have hsome : gatherCount num q 0 ≠ none := by
        intro hcon
        rw [gatherCount_none_iff num hnum q 0 le_rfl (by norm_num)] at hcon
        omega
      rcases hg : gatherCount num q 0 with - | s2
      · exact absurd hg hsome
      · have hstep : driveStep num 0 (n, q) = 0 := by
          unfold driveStep
          rw [if_pos rfl, hg]
        rw [hstep]
        have hovers : 2 ^ 31 ≤ trueTotal num (qs.get ⟨j2, hj2⟩) := hover
        have hrec := ih j2 hj2 (n + 1)
          (fun i2 h2 => by
            have := hfirst (i2 + 1) (by omega)
            exact this) hovers
        rw [hrec]
        push_cast
        ring

/-- C4: if any query's total hit count exceeds `2^31 - 1`, the whole
`searchIndex` call fails with an error identifying the (first) offending
query by its 1-based index, and no result arrays are returned for any query
(the error carries no results; all per-query outputs are discarded).
`hnum` states that each per-k-mer index count is a valid non-negative
32-bit `int`. -/
theorem claim4_thm {α : Type} (num : ℤ → ℤ) (queries : List (List (Option ℤ)))
    (results : List α)
    (hnum : ∀ c, 0 ≤ num c ∧ num c < 2 ^ 31)
    (i : ℕ) (hi : i < queries.length)
    (hfirst : ∀ i2 (h2 : i2 < i), trueTotal num (queries.get ⟨i2, by omega⟩) < 2 ^ 31)
    (hover : 2 ^ 31 ≤ trueTotal num (queries.get ⟨i, hi⟩)) :
    searchIndexResult num queries results = Except.error ((i : ℤ) + 1) := by
  have hab : driveAbort num queries = (i : ℤ) + 1 := by
    unfold driveAbort
    rw [List.enum]
    have := driveAbort_first num hnum queries i hi 0 hfirst hover
    rw [this]
    push_cast
    ring
  unfold searchIndexResult
  rw [hab, if_neg (by push_cast; omega)]

/-- The constant count table used in the overflow witness: every k-mer
occurs `2^31 - 1` times. -/
def exNum : ℤ → ℤ := fun _ => 2 ^ 31 - 1

/-- Witness for C4: a single query with two unmasked k-mers, each matching
`2^31 - 1` targets, overflows and the call returns error `1`. -/
theorem claim4_witness :
    searchIndexResult exNum [[some 0, some 0]] ([] : List ℕ) =
      Except.error ((0 : ℤ) + 1) :=
  claim4_thm exNum [[some 0, some 0]] []
    (fun c => ⟨by norm_num [exNum], by norm_num [exNum]⟩)
    0 (by norm_num)
    (fun i2 h2 => absurd h2 (Nat.not_lt_zero i2))
    (by decide)

/-! ### Anchor traceback (lines 526–556 and 672–688) -/

/-- The traceback of lines 529–552: follow `chain` from `r` until the fixed
point.  The C loop guard is `p != chain[p]`; for the DP's `chain` links
(`chain[p] ≤ p`, `dp_chain_le`) this is equivalent to `chain p < p`, which
also makes the walk terminate. -/
def traceback (chain : ℕ → ℕ) (r : ℕ) : List ℕ :=
  if h : chain r < r then r :: traceback chain (chain r) else [r]
termination_by r
decreasing_by exact h

/-- The quadruple recorded for an anchor `p`
(lines 542–551): `(qPos, qPos + len - 1, tPos, tPos + len - 1)`. -/
def anchorQuad (pq pt ln : ℕ → ℤ) (p : ℕ) : ℤ × ℤ × ℤ × ℤ :=
  (pq p, pq p + ln p - 1, pt p, pt p + ln p - 1)

/-- The columns of the emitted 4×k anchor matrix: lines 526–556 record the
quadruples in traceback order in a flat array, and the output loop of lines
672–688 walks that array backwards, so the matrix holds the reversed
traceback. -/
def anchorMatrix (chain : ℕ → ℕ) (pq pt ln : ℕ → ℤ) (r : ℕ) : List (ℤ × ℤ × ℤ × ℤ) :=
  ((traceback chain r).map (anchorQuad pq pt ln)).reverse

theorem traceback_ne_nil (chain : ℕ → ℕ) (r : ℕ) : traceback chain r ≠ [] := by
  rw [traceback]
  split
  · exact List.cons_ne_nil _ _
  · exact List.cons_ne_nil _ _

theorem traceback_head (chain : ℕ → ℕ) (r : ℕ) : (traceback chain r).head? = some r := by
  rw [traceback]
  split
  · rfl
  · rfl

/-- Consecutive entries of the traceback are `chain` links. -/
theorem traceback_chain' (chain : ℕ → ℕ) : ∀ r,
    List.Chain' (fun x y => chain x = y) (traceback chain r) := by
  intro r
  induction r using Nat.strong_induction_on with
  | _ r ih =>
    rw [traceback]
    split
    next h =>
      rw [List.chain'_cons']
      refine ⟨?_, ih (chain r) h⟩
      intro y hy
      rw [traceback_head] at hy
      exact Option.some.inj hy |>.symm ▸ rfl
    next h => exact List.chain'_singleton r

/-- Members of the traceback have query positions at most that of its head,
provided `len ≥ 1` (so DP links strictly increase `posQuery`). -/
theorem traceback_qpos_le (inp : DPInput) (hlen : ∀ j, 1 ≤ inp.len j) : ∀ r,
    ∀ y ∈ traceback ((dpRun inp).1.chain) r, inp.posQuery y ≤ inp.posQuery r := by
  intro r
  induction r using Nat.strong_induction_on with
  | _ r ih =>
    intro y hy
    rw [traceback] at hy
    split at hy
    next h =>
      rcases List.mem_cons.mp hy with h1 | h1
      · rw [h1]
      · have h2 := ih ((dpRun inp).1.chain r) h y h1
        rcases dp_char inp r with hc | ⟨p, hpk, hlink, _, hch, _, _⟩
        · have : (dpRun inp).1.chain r = r := by
            have := hc.2.1
            simp only [dpInit] at this
            exact this
          omega
        · rw [hch] at h2
          have hq := hlink.2.2.1
          have hl := hlen p
          omega
    next h =>
      rcases List.mem_singleton.mp hy with rfl
      exact le_rfl

/-- Query positions strictly decrease along the traceback. -/
theorem traceback_qpos_pairwise (inp : DPInput) (hlen : ∀ j, 1 ≤ inp.len j) : ∀ r,
    (traceback ((dpRun inp).1.chain) r).Pairwise
      (fun x y => inp.posQuery y < inp.posQuery x) := by
  intro r
  induction r using Nat.strong_induction_on with
  | _ r ih =>
    rw [traceback]
    split
    next h =>
      rw [List.pairwise_cons]
      refine ⟨?_, ih ((dpRun inp).1.chain r) h⟩
      intro y hy
      have h1 := traceback_qpos_le inp hlen ((dpRun inp).1.chain r) y hy
      rcases dp_char inp r with hc | ⟨p, hpk, hlink, _, hch, _, _⟩
      · have : (dpRun inp).1.chain r = r := by
          have := hc.2.1
          simp only [dpInit] at this
          exact this
        omega
      · rw [hch] at h1
        have hq := hlink.2.2.1
        have hl := hlen p
        omega
    next h => exact List.pairwise_singleton _ r

/-- The last traceback entry is the chain's recorded origin. -/
theorem traceback_getLast (inp : DPInput) : ∀ r,
    (traceback ((dpRun inp).1.chain) r).getLast? = some ((dpRun inp).1.origin r) := by
  intro r
  induction r using Nat.strong_induction_on with
  | _ r ih =>
    rw [traceback]
    split
    next h =>
      rw [List.getLast?_cons, ih ((dpRun inp).1.chain r) h]
      rcases dp_char inp r with hc | ⟨p, hpk, _, _, hch, hor, _⟩
      · have := hc.2.1
        simp only [dpInit] at this
        omega
      · rw [hch, ← hor]
        rfl
    next h =>
      rcases dp_char inp r with hc | ⟨p, hpk, _, _, hch, hor, _⟩
      · have h1 := hc.2.2.1
        simp only [dpInit] at h1
        rw [h1]
        rfl
      · have := dp_chain_le inp r
        omega

/-- C8: when anchors are requested, the matrix for a result `r` holds the
quadruples `(qPos, qPos + len - 1, tPos, tPos + len - 1)` of the anchors
reached by following `prev` (`chain`) from `r` back to its recorded origin,
in reverse traceback order, i.e. with strictly increasing query start
coordinates (assuming every anchor length is at least 1, as lengths are
`K + multiples of step` in the pipeline). -/
theorem claim8_thm (inp : DPInput) (hlen : ∀ j, 1 ≤ inp.len j) (r : ℕ) :
    (traceback ((dpRun inp).1.chain) r).head? = some r ∧
    (traceback ((dpRun inp).1.chain) r).getLast? = some ((dpRun inp).1.origin r) ∧
    List.Chain' (fun x y => (dpRun inp).1.chain x = y)
      (traceback ((dpRun inp).1.chain) r) ∧
    anchorMatrix ((dpRun inp).1.chain) inp.posQuery inp.posTarget inp.len r =
      ((traceback ((dpRun inp).1.chain) r).map
        (anchorQuad inp.posQuery inp.posTarget inp.len)).reverse ∧
    (anchorMatrix ((dpRun inp).1.chain) inp.posQuery inp.posTarget inp.len r).Pairwise
      (fun q1 q2 => q1.1 < q2.1) := by
  refine ⟨traceback_head _ r, traceback_getLast inp r, traceback_chain' _ r, rfl, ?_⟩
  rw [anchorMatrix, List.pairwise_reverse, List.pairwise_map]
  have h := traceback_qpos_pairwise inp hlen r
  refine h.imp ?_
  intro a b hab
  simp only [anchorQuad]
  exact hab

/-- Witness for C8 at the concrete input `exInp2`, result `r = 1`. -/
theorem claim8_witness :
    (traceback ((dpRun exInp2).1.chain) 1).head? = some 1 ∧
    (traceback ((dpRun exInp2).1.chain) 1).getLast? = some ((dpRun exInp2).1.origin 1) ∧
    List.Chain' (fun x y => (dpRun exInp2).1.chain x = y)
      (traceback ((dpRun exInp2).1.chain) 1) ∧
    anchorMatrix ((dpRun exInp2).1.chain) exInp2.posQuery exInp2.posTarget exInp2.len 1 =
      ((traceback ((dpRun exInp2).1.chain) 1).map
        (anchorQuad exInp2.posQuery exInp2.posTarget exInp2.len)).reverse ∧
    (anchorMatrix ((dpRun exInp2).1.chain) exInp2.posQuery exInp2.posTarget exInp2.len 1).Pairwise
      (fun q1 q2 => q1.1 < q2.1) :=
  claim8_thm exInp2 (fun _ => by norm_num [exInp2]) 1

/-! ### Coverage bound (lines 370–427) -/

/-- C6: suppose every hit's query interval `[qPos, qPos + len)` lies inside
a fixed set `W` of query letters with `|W| ≤ width` (in the pipeline, `W` is
the set of letters covered by the query's unmasked k-mers, whose measure is
at most the `width` computed at lines 145–157), and every `len` is at least
`1`.  Then after the chain DP `cov[k] ≤ width - 1` for every hit `k`, so
`width - cov[k] ≥ 1` and the argument of the second search-space correction
`log(width - cov[k])` (line 425) is positive. -/
theorem claim6_thm (inp : DPInput) (width : ℤ) (W : Finset ℤ)
    (hlen : ∀ j, 1 ≤ inp.len j)
    (hcover : ∀ j, j < inp.s → ∀ x : ℤ,
      inp.posQuery j ≤ x → x < inp.posQuery j + inp.len j → x ∈ W)
    (hwidth : (W.card : ℤ) ≤ width) :
    ∀ k, k < inp.s →
      (dpRun inp).1.cov k ≤ width - 1 ∧ 1 ≤ width - (dpRun inp).1.cov k := by
  have main : ∀ k, k < inp.s → ∃ F : Finset ℤ, F ⊆ W ∧
      (∀ x ∈ F, x < inp.posQuery k + inp.len k) ∧
      (dpRun inp).1.cov k + 1 ≤ (F.card : ℤ) := by
    intro k
    induction k using Nat.strong_induction_on with
    | _ k ih =>
      intro hks
      rcases dp_char inp k with hc | ⟨p, hpk, hlink, _, _, _, hcov⟩
      · have hcov : (dpRun inp).1.cov k = inp.len k - 1 := by
          have := hc.2.2.2
          simp only [dpInit] at this
          exact this
        refine ⟨Finset.Ico (inp.posQuery k) (inp.posQuery k + inp.len k), ?_, ?_, ?_⟩
        · intro x hx
          rw [Finset.mem_Ico] at hx
          exact hcover k hks x hx.1 hx.2
        · intro x hx
          rw [Finset.mem_Ico] at hx
          exact hx.2
        · have hIc : ((Finset.Ico (inp.posQuery k) (inp.posQuery k + inp.len k)).card : ℤ) =
              inp.posQuery k + inp.len k - inp.posQuery k :=
            Int.card_Ico_of_le _ _ (by have := hlen k; omega)
          rw [hcov]
          omega
      · obtain ⟨F, hFW, hFlt, hFcard⟩ := ih p hpk (by omega)
        have hq : inp.posQuery p + inp.len p ≤ inp.posQuery k := by
          have := hlink.2.2.1
          omega
        refine ⟨F ∪ Finset.Ico (inp.posQuery k) (inp.posQuery k + inp.len k), ?_, ?_, ?_⟩
        · intro x hx
          rcases Finset.mem_union.mp hx with h | h
          · exact hFW h
          · rw [Finset.mem_Ico] at h
            exact hcover k hks x h.1 h.2
        · intro x hx
          rcases Finset.mem_union.mp hx with h | h
          · have h1 := hFlt x h
            have h2 := hlen k
            omega
          · rw [Finset.mem_Ico] at h
            exact h.2
        · have hdisj : Disjoint F (Finset.Ico (inp.posQuery k) (inp.posQuery k + inp.len k)) := by
            rw [Finset.disjoint_left]
            intro x hxF hxI
            rw [Finset.mem_Ico] at hxI
            have := hFlt x hxF
            omega
          rw [Finset.card_union_of_disjoint hdisj, hcov]
          have hIco : ((Finset.Ico (inp.posQuery k) (inp.posQuery k + inp.len k)).card : ℤ) =
              inp.posQuery k + inp.len k - inp.posQuery k :=
            Int.card_Ico_of_le _ _ (by have := hlen k; omega)
          push_cast
          push_cast at hFcard hIco
          omega
  intro k hks
  obtain ⟨F, hFW, _, hFcard⟩ := main k hks
  have hcard : (F.card : ℤ) ≤ (W.card : ℤ) := by
    exact_mod_cast Finset.card_le_card hFW
  omega

/-- Witness for C6 at `exInp2` with `W = Ico 1 3` and `width = 2`. -/
theorem claim6_witness :
    (dpRun exInp2).1.cov 1 ≤ 2 - 1 ∧ 1 ≤ 2 - (dpRun exInp2).1.cov 1 :=
  claim6_thm exInp2 2 (Finset.Ico 1 3)
    (fun _ => by norm_num [exInp2])
    (fun j hj x h1 h2 => by
      rw [Finset.mem_Ico]
      by_cases h : j = 0 <;> simp [exInp2, h] at h1 h2 <;> omega)
    (by
      have := Int.card_Ico_of_le 1 3 (by omega)
      omega) 1 (by norm_num [exInp2])

/-- C10: after the chain DP, `origin` is idempotent — every recorded origin
is a root with `origin[origin[j]] = origin[j]` — and consequently, in the
all-chains selector the slot `maxOrigin[origin[j]]` has always been
initialized at the earlier index `origin[j]` before it is read and is never
`NA_INTEGER` at that read (for any score vector, in particular the
search-space-corrected one): the checked selector never fails. -/
theorem claim10_thm (inp : DPInput) (score : ℕ → ℚ) :
    (∀ j, (dpRun inp).1.origin ((dpRun inp).1.origin j) = (dpRun inp).1.origin j) ∧
    (sel1Res score ((dpRun inp).1.origin) inp.s).isSome := by
  refine ⟨dp_origin_idem inp, ?_⟩
  obtain ⟨res, hres, -⟩ := sel1Res_char score ((dpRun inp).1.origin) inp.s
    (fun j => ⟨dp_origin_le inp j, dp_origin_idem inp j⟩)
  rw [hres]
  rfl

/-! ### Inverted-index builders: `countIndex` (lines 724–758) and
`updateIndex` (lines 761–828)

Codes are naturals (`NA_INTEGER` is `none`); a corpus is a list of
queries.  `updateIndex` is modelled with `count = 0`, so query `i` is
target `i + 1`. -/

/-- The stride positions `j = 0, step, 2·step, …` of the loops
`for (j = 0; j < n; j += s)` (for `s ≥ 1`). -/
def strideIdx (n stp : ℕ) : List ℕ := (List.range n).filter (fun j => j % stp == 0)

/-- The `(position, code)` pairs at a query's unmasked stride positions. -/
def strideCodes (stp : ℕ) (w : List (Option ℕ)) : List (ℕ × ℕ) :=
  (strideIdx w.length stp).filterMap (fun j => (w.getD j none).map (fun c => (j, c)))

/-- `countIndex` (lines 739–755): increment `counts[code]` at every
unmasked stride position of every query. -/
def countIndex (stp : ℕ) (queries : List (List (Option ℕ))) (cnt : ℕ → ℕ) : ℕ → ℕ :=
  queries.foldl
    (fun cnt w => (strideCodes stp w).foldl
      (fun cnt jc => Function.update cnt jc.2 (cnt jc.2 + 1)) cnt) cnt

/-- The mutable state of `updateIndex`: the write cursors `off`, the target
array `ind`, the location array `loc` and the per-target `positions`. -/
structure UIState where
  off : ℕ → ℕ
  ind : ℕ → ℕ
  loc : ℕ → ℕ
  pos : ℕ → ℤ

/-- The per-query `positions` walk of lines 793–804: over all positions
`j`, an unmasked code adds `step` when the previous unmasked position was
`j - step`, else `K` (`k` starts at `-step - 1`). -/
def posWalk (K stp : ℤ) (w : List (Option ℕ)) : ℤ :=
  (w.enum.foldl
    (fun kp jw =>
      match jw.2 with
      | none => kp
      | some _ =>
        if kp.1 = (jw.1 : ℤ) - stp then ((jw.1 : ℤ), kp.2 + stp)
        else ((jw.1 : ℤ), kp.2 + K))
    (-1 * stp - 1, 0)).2

/-- One index write of lines 807–814 for target `c` at stride pair
`jc = (j, code)`: `ind[off[code]] = c`, `loc[off[code]] = j + 1`, then
`off[code]++`. -/
def uiWrite (c : ℕ) (st : UIState) (jc : ℕ × ℕ) : UIState :=
  { st with
    ind := Function.update st.ind (st.off jc.2) c
    loc := Function.update st.loc (st.off jc.2) (jc.1 + 1)
    off := Function.update st.off jc.2 (st.off jc.2 + 1) }

/-- `updateIndex` over the remaining queries, the next one having 0-based
position `i` (target id `i + 1`): record the `positions` contribution, then
perform the stride writes (lines 788–825). -/
def updateIndexAux (K : ℤ) (stp : ℕ) : List (List (Option ℕ)) → ℕ → UIState → UIState
  | [], _, st => st
  | w :: ws, i, st =>
    let st2 := { st with
      pos := Function.update st.pos i (st.pos i + posWalk K (stp : ℤ) w) }
    updateIndexAux K stp ws (i + 1) ((strideCodes stp w).foldl (uiWrite (i + 1)) st2)

/-- The whole `updateIndex` call with `count = 0`. -/
def updateIndex (K : ℤ) (stp : ℕ) (queries : List (List (Option ℕ))) (st : UIState) :
    UIState :=
  updateIndexAux K stp queries 0 st

/-- The flat list of index writes `(code, target, location)` performed by
`updateIndex`, starting at query position `i`. -/
def allWritesAux (stp : ℕ) : List (List (Option ℕ)) → ℕ → List (ℕ × ℕ × ℕ)
  | [], _ => []
  | w :: ws, i =>
    (strideCodes stp w).map (fun jc => (jc.2, i + 1, jc.1 + 1)) ++ allWritesAux stp ws (i + 1)

/-- All index writes of the corpus. -/
def allWrites (stp : ℕ) (queries : List (List (Option ℕ))) : List (ℕ × ℕ × ℕ) :=
  allWritesAux stp queries 0

/-- A single abstract bucket write `(code, target, location)`. -/
def bucketWrite (st : UIState) (w : ℕ × ℕ × ℕ) : UIState :=
  { st with
    ind := Function.update st.ind (st.off w.1) w.2.1
    loc := Function.update st.loc (st.off w.1) w.2.2
    off := Function.update st.off w.1 (st.off w.1 + 1) }

/-- Folding the abstract writes. -/
def bucketRun (ws : List (ℕ × ℕ × ℕ)) (st : UIState) : UIState := ws.foldl bucketWrite st

/-- Number of writes of code `c`. -/
def codeCount (ws : List (ℕ × ℕ × ℕ)) (c : ℕ) : ℕ := ws.countP (fun w => w.1 == c)

/-- The targets written into bucket `c`, in write order. -/
def bucketList (ws : List (ℕ × ℕ × ℕ)) (c : ℕ) : List ℕ :=
  (ws.filter (fun w => w.1 == c)).map (fun w => w.2.1)

/-- Equality of the `off`/`ind`/`loc` components (the `pos` walk does not
interact with the index writes). -/
def eqOIL (st st' : UIState) : Prop :=
  st.off = st'.off ∧ st.ind = st'.ind ∧ st.loc = st'.loc

theorem eqOIL_refl (st : UIState) : eqOIL st st := ⟨rfl, rfl, rfl⟩

theorem eqOIL_trans {s1 s2 s3 : UIState} (h1 : eqOIL s1 s2) (h2 : eqOIL s2 s3) :
    eqOIL s1 s3 :=
  ⟨h1.1.trans h2.1, h1.2.1.trans h2.2.1, h1.2.2.trans h2.2.2⟩

theorem bucketWrite_OIL {st st' : UIState} (h : eqOIL st st') (w : ℕ × ℕ × ℕ) :
    eqOIL (bucketWrite st w) (bucketWrite st' w) := by
  obtain ⟨h1, h2, h3⟩ := h
  unfold bucketWrite eqOIL
  rw [h1, h2, h3]
  exact ⟨rfl, rfl, rfl⟩

theorem bucketRun_OIL : ∀ (ws : List (ℕ × ℕ × ℕ)) {st st' : UIState}, eqOIL st st' →
    eqOIL (bucketRun ws st) (bucketRun ws st') := by
  intro ws
  induction ws with
  | nil => intro st st' h; exact h
  | cons w ws ih =>
    intro st st' h
    exact ih (bucketWrite_OIL h w)

/-- `updateIndex`'s index effect is exactly the flat write sequence. -/
theorem updateIndexAux_OIL (K : ℤ) (stp : ℕ) :
    ∀ (ws : List (List (Option ℕ))) (i : ℕ) (st : UIState),
      eqOIL (updateIndexAux K stp ws i st) (bucketRun (allWritesAux stp ws i) st) := by
  intro ws
  induction ws with
  | nil => intro i st; exact eqOIL_refl st
  | cons w ws ih =>
    intro i st
    simp only [updateIndexAux, allWritesAux]
    have happ : bucketRun
        ((strideCodes stp w).map (fun jc => (jc.2, i + 1, jc.1 + 1)) ++
          allWritesAux stp ws (i + 1)) st =
        bucketRun (allWritesAux stp ws (i + 1))
          (bucketRun ((strideCodes stp w).map (fun jc => (jc.2, i + 1, jc.1 + 1))) st) := by
      unfold bucketRun
      rw [List.foldl_append]
    rw [happ]
    have hfold : (strideCodes stp w).foldl (uiWrite (i + 1))
        { st with pos := Function.update st.pos i (st.pos i + posWalk K (stp : ℤ) w) } =
        bucketRun ((strideCodes stp w).map (fun jc => (jc.2, i + 1, jc.1 + 1)))
          { st with pos := Function.update st.pos i (st.pos i + posWalk K (stp : ℤ) w) } := by
      unfold bucketRun
      rw [List.foldl_map]
      rfl
    rw [hfold]
    refine eqOIL_trans (ih (i + 1) _) (bucketRun_OIL _ ?_)
    exact bucketRun_OIL _ ⟨rfl, rfl, rfl⟩

/-- Core property of sequential bucket writing: when the buckets'
destination ranges `[off c, off c + codeCount c)` are pairwise disjoint,
every bucket cursor ends at `off c + codeCount c`, the `r`-th write of code
`c` lands at cell `off c + r` and survives to the end, and cells outside
every range are untouched. -/
theorem bucketRun_spec :
    ∀ (ws : List (ℕ × ℕ × ℕ)) (st : UIState),
      (∀ c c', c ≠ c' → ∀ p, st.off c ≤ p → p < st.off c + codeCount ws c →
        ¬(st.off c' ≤ p ∧ p < st.off c' + codeCount ws c')) →
      (∀ c, (bucketRun ws st).off c = st.off c + codeCount ws c) ∧
      (∀ c r, r < codeCount ws c →
        (bucketRun ws st).ind (st.off c + r) = (bucketList ws c).getD r 0) ∧
      (∀ p, (∀ c, ¬(st.off c ≤ p ∧ p < st.off c + codeCount ws c)) →
        (bucketRun ws st).ind p = st.ind p) := by
  intro ws
  induction ws with
  | nil =>
    intro st _
    refine ⟨?_, ?_, ?_⟩
    · intro c
      simp [bucketRun, codeCount]
    · intro c r hr
      simp [codeCount] at hr
    · intro p _
      rfl
  | cons w ws ih =>
    intro st hdisj
    obtain ⟨c0, t, lo⟩ := w
    have hoff1 : ∀ c, (bucketWrite st (c0, t, lo)).off c =
        if c = c0 then st.off c + 1 else st.off c := by
      intro c
      by_cases h : c = c0
      · subst h
        simp [bucketWrite, Function.update_same]
      · simp [bucketWrite, Function.update_noteq h, h]
    have hcnt : ∀ c, codeCount ((c0, t, lo) :: ws) c =
        codeCount ws c + (if c = c0 then 1 else 0) := by
      intro c
      unfold codeCount
      rw [List.countP_cons]
      by_cases h : c = c0
      · simp [h]
      · have h2 : ¬c0 = c := fun he => h he.symm
        simp [h, h2]
    have hblist : ∀ c, bucketList ((c0, t, lo) :: ws) c =
        if c = c0 then t :: bucketList ws c else bucketList ws c := by
      intro c
      unfold bucketList
      rw [List.filter_cons]
      by_cases h : c = c0
      · simp [h]
      · have h2 : ¬c0 = c := fun he => h he.symm
        simp [h, h2]
    have hsub : ∀ c p, (bucketWrite st (c0, t, lo)).off c ≤ p →
        p < (bucketWrite st (c0, t, lo)).off c + codeCount ws c →
        (st.off c ≤ p ∧ p < st.off c + codeCount ((c0, t, lo) :: ws) c) := by
      intro c p h1 h2
      rw [hoff1 c] at h1 h2
      rw [hcnt c]
      by_cases h : c = c0 <;> simp [h] at h1 h2 ⊢ <;> omega
    have hdisj1 : ∀ c c', c ≠ c' → ∀ p,
        (bucketWrite st (c0, t, lo)).off c ≤ p →
        p < (bucketWrite st (c0, t, lo)).off c + codeCount ws c →
        ¬((bucketWrite st (c0, t, lo)).off c' ≤ p ∧
          p < (bucketWrite st (c0, t, lo)).off c' + codeCount ws c') := by
      intro c c' hne p h1 h2 hand
      obtain ⟨g1, g2⟩ := hsub c p h1 h2
      obtain ⟨g3, g4⟩ := hsub c' p hand.1 hand.2
      exact hdisj c c' hne p g1 g2 ⟨g3, g4⟩
    obtain ⟨ih1, ih2, ih3⟩ := ih (bucketWrite st (c0, t, lo)) hdisj1
    have hrun : bucketRun ((c0, t, lo) :: ws) st =
        bucketRun ws (bucketWrite st (c0, t, lo)) := rfl
    have hc0mem : st.off c0 < st.off c0 + codeCount ((c0, t, lo) :: ws) c0 := by
      rw [hcnt c0]
      simp
    refine ⟨?_, ?_, ?_⟩
    · intro c
      rw [hrun, ih1 c, hoff1 c, hcnt c]
      by_cases h : c = c0 <;> simp [h] <;> omega
    · intro c r hr
      rw [hcnt c] at hr
      by_cases h : c = c0
      · subst h
        cases r with
        | zero =>
          rw [hrun]
          have hcell := ih3 (st.off c) (by
            intro c2
            rintro ⟨h1, h2⟩
            by_cases hc2 : c2 = c
            · subst hc2
              rw [hoff1 c2] at h1
              simp at h1
            · obtain ⟨g1, g2⟩ := hsub c2 _ h1 h2
              exact hdisj c2 c hc2 _ g1 g2 ⟨le_rfl, hc0mem⟩)
          rw [add_zero, hcell]
          have hind : (bucketWrite st (c, t, lo)).ind (st.off c) = t := by
            simp [bucketWrite, Function.update_same]
          rw [hind, hblist c]
          simp
        | succ r2 =>
          have hr2 : r2 < codeCount ws c := by
            simp at hr
            omega
          have hcell : st.off c + (r2 + 1) = (bucketWrite st (c, t, lo)).off c + r2 := by
            rw [hoff1 c]
            simp
            omega
          rw [hrun, hcell, ih2 c r2 hr2, hblist c]
          simp
      · have hr2 : r < codeCount ws c := by
          simp [h] at hr
          omega
        have hcell : st.off c + r = (bucketWrite st (c0, t, lo)).off c + r := by
          rw [hoff1 c]
          simp [h]
        rw [hrun, hcell, ih2 c r hr2, hblist c]
        simp [h]
    · intro p hp
      rw [hrun]
      have hp1 : ∀ c, ¬((bucketWrite st (c0, t, lo)).off c ≤ p ∧
          p < (bucketWrite st (c0, t, lo)).off c + codeCount ws c) := by
        intro c hand
        obtain ⟨g1, g2⟩ := hsub c p hand.1 hand.2
        exact hp c ⟨g1, g2⟩
      rw [ih3 p hp1]
      have hpc0 : p ≠ st.off c0 := by
        intro he
        exact hp c0 (by rw [he]; exact ⟨le_rfl, hc0mem⟩)
      simp [bucketWrite]
      rw [Function.update_noteq hpc0]

/-- The number of occurrences of code `c` among one query's stride writes. -/
def perQueryCount (stp : ℕ) (w : List (Option ℕ)) (c : ℕ) : ℕ :=
  (strideCodes stp w).countP (fun jc => jc.2 == c)

theorem codeCount_allWritesAux (stp : ℕ) :
    ∀ (qs : List (List (Option ℕ))) (i c : ℕ),
      codeCount (allWritesAux stp qs i) c =
        (qs.map (fun w => perQueryCount stp w c)).sum := by
  intro qs
  induction qs with
  | nil => intro i c; rfl
  | cons w ws ih =>
    intro i c
    unfold codeCount at ih ⊢
    simp only [allWritesAux, List.countP_append, List.countP_map, List.map_cons,
      List.sum_cons]
    rw [ih (i + 1) c]
    rfl

theorem countIndex_inner (c : ℕ) :
    ∀ (l : List (ℕ × ℕ)) (cnt : ℕ → ℕ),
      (l.foldl (fun cnt jc => Function.update cnt jc.2 (cnt jc.2 + 1)) cnt) c =
        cnt c + l.countP (fun jc => jc.2 == c) := by
  intro l
  induction l with
  | nil => intro cnt; rfl
  | cons jc l ih =>
    intro cnt
    rw [List.foldl_cons, ih, List.countP_cons]
    by_cases h : jc.2 = c
    · rw [Function.update_apply]
      simp [h]
      omega
    · rw [Function.update_apply]
      have h2 : ¬c = jc.2 := fun he => h he.symm
      simp [h, h2]

theorem countIndex_eq (stp : ℕ) :
    ∀ (qs : List (List (Option ℕ))) (cnt : ℕ → ℕ) (c : ℕ),
      countIndex stp qs cnt c = cnt c + (qs.map (fun w => perQueryCount stp w c)).sum := by
  intro qs
  induction qs with
  | nil => intro cnt c; rfl
  | cons w ws ih =>
    intro cnt c
    unfold countIndex at ih ⊢
    rw [List.foldl_cons, ih, countIndex_inner]
    simp only [List.map_cons, List.sum_cons]
    unfold perQueryCount
    omega

/-- All targets written starting from query position `i` are at least `i + 1`. -/
theorem allWritesAux_target_lb (stp : ℕ) :
    ∀ (qs : List (List (Option ℕ))) (i : ℕ), ∀ x ∈ allWritesAux stp qs i, i + 1 ≤ x.2.1 := by
  intro qs
  induction qs with
  | nil => intro i x hx; exact absurd hx (List.not_mem_nil x)
  | cons w ws ih =>
    intro i x hx
    simp only [allWritesAux, List.mem_append] at hx
    rcases hx with h | h
    · rcases List.mem_map.mp h with ⟨jc, _, he⟩
      rw [← he]
    · have := ih (i + 1) x h
      omega

/-- The number of index writes carrying target `i + j + 1` equals the
number of stride writes of query `j`. -/
theorem allWritesAux_countTarget (stp : ℕ) :
    ∀ (qs : List (List (Option ℕ))) (j : ℕ) (hj : j < qs.length) (i : ℕ),
      (allWritesAux stp qs i).countP (fun x => x.2.1 == i + j + 1) =
        (strideCodes stp (qs.get ⟨j, hj⟩)).length := by
  intro qs
  induction qs with
  | nil => intro j hj; simp at hj
  | cons w ws ih =>
    intro j hj i
    simp only [allWritesAux, List.countP_append, List.countP_map]
    cases j with
    | zero =>
      have h1 : ((strideCodes stp w).countP
          ((fun x => x.2.1 == i + 0 + 1) ∘ (fun jc => (jc.2, i + 1, jc.1 + 1)))) =
          (strideCodes stp w).length := by
        rw [List.countP_eq_length]
        intro a _
        simp
      have h2 : (allWritesAux stp ws (i + 1)).countP (fun x => x.2.1 == i + 0 + 1) = 0 := by
        rw [List.countP_eq_zero]
        intro a ha
        have := allWritesAux_target_lb stp ws (i + 1) a ha
        simp only [beq_iff_eq]
        omega
      rw [h1, h2]
      rfl
    | succ j2 =>
      have hj2 : j2 < ws.length := by simpa using hj
      have h1 : ((strideCodes stp w).countP
          ((fun x => x.2.1 == i + (j2 + 1) + 1) ∘ (fun jc => (jc.2, i + 1, jc.1 + 1)))) = 0 := by
        rw [List.countP_eq_zero]
        intro a _
        simp only [Function.comp_apply, beq_iff_eq]
        omega
      have h2 := ih j2 hj2 (i + 1)
      have h3 : (allWritesAux stp ws (i + 1)).countP (fun x => x.2.1 == i + (j2 + 1) + 1) =
          (strideCodes stp (ws.get ⟨j2, hj2⟩)).length := by
        rw [← h2]
        congr 1
        funext x
        have : i + 1 + j2 + 1 = i + (j2 + 1) + 1 := by omega
        rw [this]
      rw [h1, h3]
      simp [List.get]

/-- `bucketList ws c` has exactly `codeCount ws c` entries. -/
theorem bucketList_length (ws : List (ℕ × ℕ × ℕ)) (c : ℕ) :
    (bucketList ws c).length = codeCount ws c := by
  unfold bucketList codeCount
  rw [List.length_map, ← List.countP_eq_length_filter]

/-- Cousin of `hblist` inside `bucketRun_spec`, standalone. -/
theorem bucketList_cons (w : ℕ × ℕ × ℕ) (ws : List (ℕ × ℕ × ℕ)) (c : ℕ) :
    bucketList (w :: ws) c =
      if w.1 = c then w.2.1 :: bucketList ws c else bucketList ws c := by
  unfold bucketList
  rw [List.filter_cons]
  by_cases h : w.1 = c <;> simp [h]

/-- Summing one target's appearances over all buckets counts its writes. -/
theorem sum_bucketList_count (L tt : ℕ) :
    ∀ ws : List (ℕ × ℕ × ℕ), (∀ x ∈ ws, x.1 < L) →
      (∑ c ∈ Finset.range L, (bucketList ws c).countP (fun x => x == tt)) =
        ws.countP (fun x => x.2.1 == tt) := by
  intro ws
  induction ws with
  | nil =>
    intro _
    simp [bucketList]
  | cons w ws ih =>
    intro hcode
    have hws : ∀ x ∈ ws, x.1 < L := fun x hx => hcode x (List.mem_cons_of_mem w hx)
    have hsplit : ∀ c, (bucketList (w :: ws) c).countP (fun x => x == tt) =
        (bucketList ws c).countP (fun x => x == tt) +
          (if c = w.1 then (if w.2.1 = tt then 1 else 0) else 0) := by
      intro c
      rw [bucketList_cons]
      by_cases h : w.1 = c
      · rw [if_pos h, List.countP_cons]
        by_cases h2 : w.2.1 = tt
        · simp [h2, h.symm]
        · simp [h2, h.symm]
      · rw [if_neg h, if_neg (fun he => h he.symm)]
        omega
    rw [Finset.sum_congr rfl (fun c _ => hsplit c), Finset.sum_add_distrib, ih hws]
    rw [List.countP_cons]
    have hsum : (∑ c ∈ Finset.range L,
        (if c = w.1 then (if w.2.1 = tt then 1 else 0) else 0)) =
        (if w.2.1 = tt then 1 else 0) := by
      rw [Finset.sum_ite_eq' (Finset.range L) w.1 (fun _ => if w.2.1 = tt then 1 else 0)]
      rw [if_pos (Finset.mem_range.mpr (hcode w (List.mem_cons_self w ws)))]
    rw [hsum]
    by_cases h : w.2.1 = tt <;> simp [h]

/-- Counting a predicate over the cells of one bucket via the stored list. -/
theorem countP_range_getD (f : ℕ → ℕ) (tt : ℕ) :
    ∀ (l : List ℕ) (start : ℕ),
      (∀ r, r < l.length → f (start + r) = l.getD r 0) →
      (List.range' start l.length).countP (fun p => f p == tt) =
        l.countP (fun x => x == tt) := by
  intro l
  induction l with
  | nil => intro start _; rfl
  | cons x l ih =>
    intro start h
    rw [List.length_cons, List.range'_succ, List.countP_cons, List.countP_cons]
    have h0 : f start = x := by
      have := h 0 (by simp)
      simpa using this
    have hrec := ih (start + 1) (fun r hr => by
      have := h (r + 1) (by simp; omega)
      rw [show start + 1 + r = start + (r + 1) by omega]
      simpa using this)
    rw [hrec, h0]

/-- Prefix sums of a count vector give monotone bucket boundaries. -/
theorem off_mono (cnt : ℕ → ℕ) {c c' : ℕ} (h : c < c') :
    (∑ x ∈ Finset.range c, cnt x) + cnt c ≤ ∑ x ∈ Finset.range c', cnt x := by
  rw [← Finset.sum_range_succ]
  exact Finset.sum_le_sum_of_subset (Finset.range_subset.mpr h)

/-- Counting over the full cell range splits into the per-bucket ranges. -/
theorem countP_range_split (cnt : ℕ → ℕ) (pr : ℕ → Bool) :
    ∀ L : ℕ,
      (List.range' 0 (∑ x ∈ Finset.range L, cnt x)).countP pr =
        ∑ c ∈ Finset.range L,
          (List.range' (∑ x ∈ Finset.range c, cnt x) (cnt c)).countP pr := by
  intro L
  induction L with
  | zero => simp
  | succ L ih =>
    rw [Finset.sum_range_succ, Finset.sum_range_succ]
    have hcomm : (∑ x ∈ Finset.range L, cnt x) + cnt L =
        cnt L + (∑ x ∈ Finset.range L, cnt x) := Nat.add_comm _ _
    rw [hcomm, ← List.range'_append_1, Nat.zero_add, List.countP_append, ih]

/-- C9: after `countIndex` and then `updateIndex` run over the whole corpus
with the offsets initialized to the cumulative prefix of the counts, each
final `offset[c]` equals its initial value plus `count[c]`, and each target
`i + 1` appears in the filled region of `index` exactly once per
stride-aligned unmasked position of query `i` (i.e. once per element of
`strideCodes`). -/
theorem claim9_thm (K : ℤ) (stp : ℕ) (queries : List (List (Option ℕ))) (L : ℕ)
    (st0 : UIState)
    (hoff : ∀ c, st0.off c = ∑ x ∈ Finset.range c, countIndex stp queries (fun _ => 0) x)
    (hcode : ∀ x ∈ allWrites stp queries, x.1 < L) :
    (∀ c, (updateIndex K stp queries st0).off c =
        st0.off c + countIndex stp queries (fun _ => 0) c) ∧
    (∀ i (hi : i < queries.length),
      (List.range' 0 (st0.off L)).countP
          (fun p => (updateIndex K stp queries st0).ind p == i + 1) =
        (strideCodes stp (queries.get ⟨i, hi⟩)).length) := by
  set cnt := countIndex stp queries (fun _ => 0) with hcntdef
  set ws := allWrites stp queries with hwsdef
  have hcnt : ∀ c, codeCount ws c = cnt c := by
    intro c
    rw [hwsdef, hcntdef]
    unfold allWrites
    rw [codeCount_allWritesAux, countIndex_eq]
    simp
  have hOIL : eqOIL (updateIndex K stp queries st0) (bucketRun ws st0) :=
    updateIndexAux_OIL K stp queries 0 st0
  have hdisj : ∀ c c', c ≠ c' → ∀ p, st0.off c ≤ p → p < st0.off c + codeCount ws c →
      ¬(st0.off c' ≤ p ∧ p < st0.off c' + codeCount ws c') := by
    intro c c' hne p h1 h2 hcon
    rw [hcnt] at h2
    rw [hcnt] at hcon
    obtain ⟨h3, h4⟩ := hcon
    rcases Nat.lt_or_ge c c' with hlt | hge
    · have hm := off_mono cnt hlt
      rw [← hoff c, ← hoff c'] at hm
      omega
    · have hlt' : c' < c := lt_of_le_of_ne hge (fun he => hne he.symm)
      have hm := off_mono cnt hlt'
      rw [← hoff c', ← hoff c] at hm
      omega
  have hspec := bucketRun_spec ws st0 hdisj
  constructor
  · intro c
    rw [hOIL.1, hspec.1 c, hcnt c]
  · intro i hi
    rw [hOIL.2.1, hoff L, countP_range_split cnt _ L]
    have hbucket : ∀ c ∈ Finset.range L,
        (List.range' (∑ x ∈ Finset.range c, cnt x) (cnt c)).countP
            (fun p => (bucketRun ws st0).ind p == i + 1) =
          (bucketList ws c).countP (fun x => x == i + 1) := by
      intro c _
      have hlen : (bucketList ws c).length = cnt c := by
        rw [bucketList_length, hcnt]
      rw [← hlen, ← hoff c]
      exact countP_range_getD (fun p => (bucketRun ws st0).ind p) (i + 1)
        (bucketList ws c) (st0.off c)
        (fun r hr => hspec.2.1 c r (by rw [bucketList_length] at hr; exact hr))
    rw [Finset.sum_congr rfl hbucket, sum_bucketList_count L (i + 1) ws hcode]
    have hpred : (fun x : ℕ × ℕ × ℕ => x.2.1 == i + 1) =
        (fun x : ℕ × ℕ × ℕ => x.2.1 == 0 + i + 1) := by
      funext x
      rw [Nat.zero_add]
    rw [hwsdef]
    unfold allWrites
    rw [hpred]
    exact allWritesAux_countTarget stp queries i hi 0

/-- A one-query corpus used to witness `claim9_thm`. -/
def q9 : List (List (Option ℕ)) := [[some 0, some 1]]

/-- Its initial `updateIndex` state: offsets at the cumulative prefix of the
counts, empty index. -/
def st9 : UIState :=
  { off := fun c => ∑ x ∈ Finset.range c, countIndex 1 q9 (fun _ => 0) x
    ind := fun _ => 0
    loc := fun _ => 0
    pos := fun _ => 0 }

theorem claim9_witness :
    (∀ c, st9.off c = ∑ x ∈ Finset.range c, countIndex 1 q9 (fun _ => 0) x) ∧
    (∀ x ∈ allWrites 1 q9, x.1 < 2) ∧
    (updateIndex 1 1 q9 st9).off 0 = st9.off 0 + countIndex 1 q9 (fun _ => 0) 0 ∧
    (List.range' 0 (st9.off 2)).countP
        (fun p => (updateIndex 1 1 q9 st9).ind p == 0 + 1) =
      (strideCodes 1 (q9.get ⟨0, by decide⟩)).length := by
  have h := claim9_thm 1 1 q9 2 st9 (fun c => rfl) (by decide)
  exact ⟨fun c => rfl, by decide, h.1 0, h.2 0 (by decide)⟩

end SearchC
